import Mathlib

/-!
# simplevendor: the transitive import analyzer, the driver filter and the materializer

A shallow embedding of `main.go`.  The package `go/build` and the operating
system are collaborators of the program: they are taken as parameters
(`Resolver`, `OS`).  Go maps are association lists whose list order stands for
the (unspecified) iteration order of `range`; theorems quantify over that
order.  Recursion depth of `analyze` is bounded by a fuel argument; `none`
means the fuel ran out.
-/

namespace SimpleVendor

/-! ## Data model -/

/-- The fields of `build.Package` the program reads. -/
structure Package where
  ImportPath : String
  Dir : String
  Goroot : Bool
  GoFiles : List String
  CgoFiles : List String
  IgnoredGoFiles : List String
  CFiles : List String
  CXXFiles : List String
  MFiles : List String
  HFiles : List String
  SwigFiles : List String
  SwigCXXFiles : List String
  SysoFiles : List String
  Imports : List String
  TestImports : List String
  XTestImports : List String
  deriving DecidableEq, Repr, Inhabited

/-- The package resolver `go/build`, a deterministic black box.
`importFull path` is `build.Import(path, "", 0)` and `importFind path` is
`build.Import(path, "", build.FindOnly)`. -/
structure Resolver (ε : Type) where
  importFull : String → Except ε Package
  importFind : String → Except ε Package

/-- A Go `map[string]α`: an association list; the list order is the order in
which `range` happens to visit the entries. -/
abbrev GoMap (α : Type) := List (String × α)

/-- The keys of a map, in iteration order. -/
def GoMap.keys {α : Type} (m : GoMap α) : List String := m.map Prod.fst

/-- The values of a map, in iteration order. -/
def GoMap.values {α : Type} (m : GoMap α) : List α := m.map Prod.snd

/-- Map lookup `m[k]` with the comma-ok result as an `Option`. -/
def GoMap.get {α : Type} : GoMap α → String → Option α
  | [], _ => none
  | (k, v) :: rest, key => if k = key then some v else GoMap.get rest key

/-- Map assignment `m[k] = v`: replaces the value of an existing key, adds the
key otherwise. -/
def GoMap.set {α : Type} : GoMap α → String → α → GoMap α
  | [], key, val => [(key, val)]
  | (k, v) :: rest, key, val =>
    if k = key then (k, val) :: rest else (k, v) :: GoMap.set rest key val

/-- The expression `d.testEnabled[path]` on a `map[string]bool`: the zero value
`false` for an absent key. -/
def testEnabled (paths : GoMap Bool) (path : String) : Bool :=
  (GoMap.get paths path).getD false

/-! ## The transitive import analyzer -/

/-- The function `isStd`. -/
def isStd {ε : Type} (r : Resolver ε) (path : String) : Bool :=
  if path = "C" then true
  else
    match r.importFind path with
    | .error _ => false
    | .ok p => p.Goroot

/-- The receiver `d` of `analyze`, without the read-only field `testEnabled`:
the map `d.packages`, and the ghost field `fetched`, which records the
argument of every call `build.Import(path, "", 0)` made by `analyze`, in call
order. -/
structure State where
  packages : GoMap Package
  fetched : List String
  deriving DecidableEq, Repr

/-- The keys of `d.packages`. -/
def State.keys (d : State) : List String := GoMap.keys d.packages

/-- The loop `for _, dep := range set { if err := f(dep); err != nil { return err } }`.
The outer `Option` is `none` when the fuel of a call ran out; the inner one is
the Go `error` (`none` is `nil`). -/
def forDeps {ε : Type} (f : String → State → Option (Option ε × State)) :
    List String → State → Option (Option ε × State)
  | [], d => some (none, d)
  | dep :: rest, d =>
    match f dep d with
    | none => none
    | some (some e, d1) => some (some e, d1)
    | some (none, d1) => forDeps f rest d1

/-- The loop `for _, set := range sets { for _, dep := range set { ... } }`. -/
def forSets {ε : Type} (f : String → State → Option (Option ε × State)) :
    List (List String) → State → Option (Option ε × State)
  | [], d => some (none, d)
  | set :: rest, d =>
    match forDeps f set d with
    | none => none
    | some (some e, d1) => some (some e, d1)
    | some (none, d1) => forSets f rest d1

/-- The slice `sets` that `analyze` builds for a fetched package. -/
def analyzeSets (paths : GoMap Bool) (path : String) (pkg : Package) : List (List String) :=
  [pkg.Imports] ++ (if testEnabled paths path then [pkg.TestImports, pkg.XTestImports] else [])

/-- The method `(*transitiveImports).analyze`; `paths` is `d.testEnabled`. -/
def analyze {ε : Type} (r : Resolver ε) (paths : GoMap Bool) :
    Nat → String → State → Option (Option ε × State)
  | 0, _, _ => none
  | fuel + 1, path, d =>
    if isStd r path then some (none, d)
    else if (GoMap.get d.packages path).isSome then some (none, d)
    else
      match r.importFull path with
      | .error e => some (some e, { d with fetched := d.fetched ++ [path] })
      | .ok pkg =>
        forSets (fun dep d1 => analyze r paths fuel dep d1) (analyzeSets paths path pkg)
          { packages := GoMap.set d.packages path pkg, fetched := d.fetched ++ [path] }

/-- The state `d` with which `getTransitiveImports` starts. -/
def State.init : State := { packages := [], fetched := [] }

/-- The seed loop of `getTransitiveImports`, returning the error of the first
failing `analyze` and the final `d`. -/
def traverse {ε : Type} (r : Resolver ε) (fuel : Nat) (paths : GoMap Bool) :
    Option (Option ε × State) :=
  forDeps (fun p d => analyze r paths fuel p d) (GoMap.keys paths) State.init

/-- The function `getTransitiveImports`: the pair `(result, err)`; a `nil`
slice is `[]`.  The result lists the values of `d.packages` in the iteration
order of the map, which Go leaves unspecified and which is insertion order
here; the theorems on the result speak of membership and multiplicity. -/
def getTransitiveImports {ε : Type} (r : Resolver ε) (fuel : Nat) (paths : GoMap Bool) :
    Option (List Package × Option ε) :=
  match traverse r fuel paths with
  | none => none
  | some (some e, _) => some ([], some e)
  | some (none, d) => some (GoMap.values d.packages, none)

/-! ## The operating system, the materializer and the driver -/

/-- The flags `*dryrun` and `*verbose`. -/
structure Flags where
  dryrun : Bool
  verbose : Bool
  deriving DecidableEq, Repr

/-- The part of `os.FileInfo` that `cp` reads. -/
structure FileInfo where
  mode : Nat
  modTime : Nat
  deriving DecidableEq, Repr

/-- The operating system and the path library, a black box over a state `σ`
with file handles `φ`: `join` is `filepath.Join`, `base` is `filepath.Base`,
`mkdirAll` is `os.MkdirAll`, `glob` is `filepath.Glob`, `stat` is `os.Stat`,
`openRead` is `os.Open`, `create` is `os.OpenFile` with
`O_WRONLY|O_CREATE|O_TRUNC`, `copy` is `io.Copy`, `close` is `(*File).Close`,
`chtimes` is `os.Chtimes` and `now` is `time.Now`. -/
structure OS (σ ε φ : Type) where
  join : String → String → String
  base : String → String
  mkdirAll : String → Nat → σ → Option ε × σ
  glob : String → σ → Except ε (List String)
  stat : String → σ → Except ε FileInfo
  openRead : String → σ → Except ε φ × σ
  create : String → Nat → σ → Except ε φ × σ
  copy : φ → φ → σ → Option ε × σ
  close : φ → σ → Option ε × σ
  chtimes : String → Nat → Nat → σ → Option ε × σ
  now : σ → Nat

/-- What the process acts on: the state of the operating system and the lines
written by `log.Printf` (the message only, without the time and file prefix). -/
structure World (σ : Type) where
  fs : σ
  log : List String
  deriving DecidableEq, Repr

/-- The variable `specials`. -/
def specials : List String :=
  ["license", "LICENSE", "patents", "PATENTS", "readme", "README", "readme.md", "README.md"]

/-- The function `strings.HasSuffix`. -/
def hasSuffix (s suffix : String) : Bool := suffix.data.isSuffixOf s.data

/-- The function `cp`; the deferred `srcF.Close()` runs on every return after
`os.Open` succeeded. -/
def cp {σ ε φ : Type} (os : OS σ ε φ) (src dst : String) (w : σ) : Option ε × σ :=
  match os.stat src w with
  | .error e => (some e, w)
  | .ok info =>
    match os.openRead src w with
    | (.error e, w1) => (some e, w1)
    | (.ok srcF, w1) =>
      match os.create dst info.mode w1 with
      | (.error e, w2) => (some e, (os.close srcF w2).2)
      | (.ok dstF, w2) =>
        match os.copy dstF srcF w2 with
        | (some e, w3) => (some e, (os.close srcF (os.close dstF w3).2).2)
        | (none, w3) =>
          match os.close dstF w3 with
          | (some e, w4) => (some e, (os.close srcF w4).2)
          | (none, w4) =>
            match os.chtimes dst (os.now w4) info.modTime w4 with
            | (err, w5) => (err, (os.close srcF w5).2)

/-- The line that `log.Printf("cp %s => %s\n", src, dst)` writes. -/
def cpLine (src dst : String) : String := "cp " ++ src ++ " => " ++ dst

/-- The inner loop of `vendor`: `for _, file := range set`. -/
def vendorFiles {σ ε φ : Type} (os : OS σ ε φ) (flags : Flags) (pkgDir targetDir : String) :
    List String → World σ → Option ε × World σ
  | [], w => (none, w)
  | file :: rest, w =>
    if hasSuffix file "_test.go" then vendorFiles os flags pkgDir targetDir rest w
    else
      let src := os.join pkgDir file
      let dst := os.join targetDir file
      let w1 : World σ :=
        if flags.verbose then { fs := w.fs, log := w.log ++ [cpLine src dst] } else w
      if !flags.dryrun then
        match cp os src dst w1.fs with
        | (some e, fs2) => (some e, { fs := fs2, log := w1.log })
        | (none, fs2) => vendorFiles os flags pkgDir targetDir rest { fs := fs2, log := w1.log }
      else vendorFiles os flags pkgDir targetDir rest w1

/-- The outer loop of `vendor`: `for _, set := range sets`. -/
def vendorSets {σ ε φ : Type} (os : OS σ ε φ) (flags : Flags) (pkgDir targetDir : String) :
    List (List String) → World σ → Option ε × World σ
  | [], w => (none, w)
  | set :: rest, w =>
    match vendorFiles os flags pkgDir targetDir set w with
    | (some e, w1) => (some e, w1)
    | (none, w1) => vendorSets os flags pkgDir targetDir rest w1

/-- The last loop of `vendor`: the copies of the special files, whose errors
are dropped. -/
def vendorSpecials {σ ε φ : Type} (os : OS σ ε φ) (pkgDir targetDir : String) :
    List String → σ → σ
  | [], fs => fs
  | file :: rest, fs =>
    vendorSpecials os pkgDir targetDir rest
      (cp os (os.join pkgDir file) (os.join targetDir file) fs).2

/-- The slice `sets` of `vendor`, given the base names of the globbed `.s` files. -/
def vendorFileSets (pkg : Package) (sFiles : List String) : List (List String) :=
  [pkg.GoFiles, pkg.CgoFiles, pkg.IgnoredGoFiles, pkg.CFiles, pkg.CXXFiles, pkg.MFiles,
    pkg.HFiles, sFiles, pkg.SwigFiles, pkg.SwigCXXFiles, pkg.SysoFiles]

/-- The function `vendor`; the permission `0755` is `493`. -/
def vendor {σ ε φ : Type} (os : OS σ ε φ) (flags : Flags) (dir : String) (pkg : Package)
    (w : World σ) : Option ε × World σ :=
  let targetDir := os.join dir pkg.ImportPath
  match os.mkdirAll targetDir 493 w.fs with
  | (some e, fs1) => (some e, { fs := fs1, log := w.log })
  | (none, fs1) =>
    match os.glob (pkg.Dir ++ "/*.s") fs1 with
    | .error e => (some e, { fs := fs1, log := w.log })
    | .ok found =>
      let sFiles := found.map os.base
      match vendorSets os flags pkg.Dir targetDir (vendorFileSets pkg sFiles)
          { fs := fs1, log := w.log } with
      | (some e, w2) => (some e, w2)
      | (none, w2) =>
        if !flags.dryrun then
          (none, { fs := vendorSpecials os pkg.Dir targetDir specials w2.fs, log := w2.log })
        else (none, w2)

/-- The expression `localImports[pkg.ImportPath]`. -/
def isLocal (localImports : GoMap Bool) (path : String) : Bool :=
  (GoMap.get localImports path).getD false

/-- The outcome of the driver: the fatal error if any, the world, and the ghost
list of the arguments of the calls of `vendor`, in call order. -/
structure Run (σ ε : Type) where
  err : Option ε
  world : World σ
  vendored : List Package

/-- The last loop of `main`: `for _, pkg := range transitivePackages`; `acc`
holds the packages passed to `vendor` so far, and `log.Fatal` ends the run
(the line it writes is not part of the model). -/
def vendorAll {σ ε φ : Type} (os : OS σ ε φ) (flags : Flags) (vendorDir : String)
    (localImports : GoMap Bool) : List Package → World σ → List Package → Run σ ε
  | [], w, acc => { err := none, world := w, vendored := acc }
  | pkg :: rest, w, acc =>
    if isLocal localImports pkg.ImportPath then
      vendorAll os flags vendorDir localImports rest w acc
    else
      let w1 : World σ :=
        if flags.verbose then { fs := w.fs, log := w.log ++ ["vendor: " ++ pkg.ImportPath] }
        else w
      match vendor os flags vendorDir pkg w1 with
      | (some e, w2) => { err := some e, world := w2, vendored := acc ++ [pkg] }
      | (none, w2) => vendorAll os flags vendorDir localImports rest w2 (acc ++ [pkg])

/-- The map `localImports` that `main` builds from the discovered packages. -/
def localImportsOf (packages : List Package) : GoMap Bool :=
  packages.foldl (fun m pkg => GoMap.set m pkg.ImportPath true) []

/-- The flags after `flag.Parse()` and `if *dryrun { *verbose = true }`. -/
def effectiveFlags (flags : Flags) : Flags :=
  if flags.dryrun then { dryrun := flags.dryrun, verbose := true } else flags

/-- The function `main` from the construction of `localImports` on, given the
packages discovered under the current directory; `none` when the fuel of the
analyzer ran out. -/
def mainFrom {σ ε φ : Type} (os : OS σ ε φ) (r : Resolver ε) (fuel : Nat) (flags0 : Flags)
    (vendorDir : String) (packages : List Package) (w : World σ) : Option (Run σ ε) :=
  let flags := effectiveFlags flags0
  let localImports := localImportsOf packages
  let w1 : World σ :=
    if flags.verbose then
      { fs := w.fs, log := w.log ++ (GoMap.keys localImports).map (fun pkg => "local: " ++ pkg) }
    else w
  match getTransitiveImports r fuel localImports with
  | none => none
  | some (_, some e) => some { err := some e, world := w1, vendored := [] }
  | some (transitivePackages, none) =>
    some (vendorAll os flags vendorDir localImports transitivePackages w1 [])

/-! ## An in-memory file system -/

/-- A regular file. -/
structure MemFile where
  content : List Nat
  mode : Nat
  modTime : Nat
  deriving DecidableEq, Repr

/-- A file system: the directories, the regular files and the clock. -/
structure MemFS where
  dirs : List String
  files : GoMap MemFile
  clock : Nat
  deriving DecidableEq, Repr

/-- The part of a path after its last slash. -/
def memBase (path : String) : String :=
  String.mk (path.data.reverse.takeWhile (fun c => c != '/')).reverse

/-- An operating system over `MemFS`, with paths as file handles.  `mkdirAll`
records the directory itself; `glob` finds no file. -/
def memOS : OS MemFS String String :=
  { join := fun a b => a ++ "/" ++ b
    base := memBase
    mkdirAll := fun path _ fs =>
      if path ∈ fs.dirs then (none, fs)
      else if (GoMap.get fs.files path).isSome then
        (some ("mkdir " ++ path ++ ": not a directory"), fs)
      else (none, { dirs := fs.dirs ++ [path], files := fs.files, clock := fs.clock })
    glob := fun _ _ => .ok []
    stat := fun path fs =>
      match GoMap.get fs.files path with
      | some f => .ok { mode := f.mode, modTime := f.modTime }
      | none => .error ("stat " ++ path ++ ": no such file or directory")
    openRead := fun path fs =>
      match GoMap.get fs.files path with
      | some _ => (.ok path, fs)
      | none => (.error ("open " ++ path ++ ": no such file or directory"), fs)
    create := fun path mode fs =>
      (.ok path, { dirs := fs.dirs, clock := fs.clock,
                   files := GoMap.set fs.files path
                     { content := [], mode := mode, modTime := fs.clock } })
    copy := fun dst src fs =>
      match GoMap.get fs.files src, GoMap.get fs.files dst with
      | some f, some g =>
        (none, { dirs := fs.dirs, clock := fs.clock,
                 files := GoMap.set fs.files dst
                   { content := f.content, mode := g.mode, modTime := fs.clock } })
      | _, _ => (some "copy: bad file descriptor", fs)
    close := fun _ fs => (none, fs)
    chtimes := fun path _ mtime fs =>
      match GoMap.get fs.files path with
      | some f =>
        (none, { dirs := fs.dirs, clock := fs.clock,
                 files := GoMap.set fs.files path
                   { content := f.content, mode := f.mode, modTime := mtime } })
      | none => (some ("chtimes " ++ path ++ ": no such file or directory"), fs)
    now := fun fs => fs.clock }

/-- A file system holding the package `x` with one source file and one test file. -/
def srcFS : MemFS :=
  { dirs := ["/src/x"], clock := 100,
    files := [("/src/x/a.go", { content := [112, 107, 103], mode := 420, modTime := 7 }),
      ("/src/x/a_test.go", { content := [116], mode := 420, modTime := 8 })] }

/-- A file system without any file. -/
def emptyFS : MemFS := { dirs := [], files := [], clock := 0 }

/-- The `cp` lines that `vendor` reports for one set when every copy succeeds. -/
def cpLines {σ ε φ : Type} (os : OS σ ε φ) (pkgDir targetDir : String) :
    List String → List String
  | [] => []
  | file :: rest =>
    if hasSuffix file "_test.go" then cpLines os pkgDir targetDir rest
    else cpLine (os.join pkgDir file) (os.join targetDir file) ::
      cpLines os pkgDir targetDir rest

/-- The `cp` lines for all sets. -/
def cpLinesSets {σ ε φ : Type} (os : OS σ ε φ) (pkgDir targetDir : String) :
    List (List String) → List String
  | [] => []
  | set :: rest => cpLines os pkgDir targetDir set ++ cpLinesSets os pkgDir targetDir rest

/-! ## In-memory resolvers for the scenarios -/

/-- A package record with the given import path and import lists, located
outside the toolchain root, with no source files. -/
def mkPkg (path : String) (imports tests xtests : List String) : Package :=
  { ImportPath := path, Dir := "/src/" ++ path, Goroot := false,
    GoFiles := [], CgoFiles := [], IgnoredGoFiles := [], CFiles := [], CXXFiles := [],
    MFiles := [], HFiles := [], SwigFiles := [], SwigCXXFiles := [], SysoFiles := [],
    Imports := imports, TestImports := tests, XTestImports := xtests }

/-- The record of the package `x`. -/
def pkgX : Package :=
  { mkPkg "x" [] [] [] with GoFiles := ["a.go", "a_test.go"] }

/-- Finds the record with the given import path in a table. -/
def findPkg : List Package → String → Option Package
  | [], _ => none
  | p :: rest, path => if p.ImportPath = path then some p else findPkg rest path

/-- An in-memory resolver: the packages of `table` resolve to their records,
every other path fails to resolve in both modes. -/
def tableResolver (table : List Package) : Resolver String :=
  { importFull := fun path =>
      match findPkg table path with
      | some p => .ok p
      | none => .error ("cannot find package " ++ path)
    importFind := fun path =>
      match findPkg table path with
      | some p => .ok p
      | none => .error ("cannot find package " ++ path) }

/-- The cycle: A imports B and B imports A. -/
def cycleTable : List Package := [mkPkg "A" ["B"] [] [], mkPkg "B" ["A"] [] []]

/-- The diamond: `x/a` imports `x/b` and `x/c`, both import `x/d`. -/
def diamondTable : List Package :=
  [mkPkg "x/a" ["x/b", "x/c"] [] [], mkPkg "x/b" ["x/d"] [] [], mkPkg "x/c" ["x/d"] [] [],
    mkPkg "x/d" [] [] []]

/-- Test scoping: the seed `S` imports `T` and has the test-only import `U`;
`T` has the test-only import `V`. -/
def scopeTable : List Package :=
  [mkPkg "S" ["T"] ["U"] [], mkPkg "T" [] ["V"] [], mkPkg "U" [] [] [], mkPkg "V" [] [] []]

/-- Test scoping with a second test import of the seed: `S` imports `T` and has
the test-only imports `U` and `W`; `T` has the test-only import `V`, and `W`
imports `V`. -/
def widerScopeTable : List Package :=
  [mkPkg "S" ["T"] ["U", "W"] [], mkPkg "T" [] ["V"] [], mkPkg "U" [] [] [],
    mkPkg "W" ["V"] [] [], mkPkg "V" [] [] []]

/-- Test scoping with an import of the seed that does not resolve: `S` imports
`T` and `missing/x` and has the test-only import `U`; the test-only import of
`T` is `V`. -/
def brokenScopeTable : List Package :=
  [mkPkg "S" ["T", "missing/x"] ["U"] [], mkPkg "T" [] ["V"] [], mkPkg "U" [] [] [],
    mkPkg "V" [] [] []]

/-- Two seeds `A` and `B`: `A` imports `B`, and `B` has the test-only import `U`. -/
def seedDepTable : List Package :=
  [mkPkg "A" ["B"] [] [], mkPkg "B" [] ["U"] [], mkPkg "U" [] [] []]

/-- A record located under the toolchain root. -/
def mkStd (path : String) (imports : List String) : Package :=
  { mkPkg path imports [] [] with Goroot := true }

/-- A project package importing the standard-library package `net/http`, which
alone imports `golang.org/x/net`. -/
def stdTable : List Package :=
  [mkPkg "proj" ["net/http", "C"] [] [], mkStd "net/http" ["golang.org/x/net"],
    mkPkg "golang.org/x/net" [] [] []]

/-- The example scenario of the specification. -/
def projTable : List Package :=
  [mkPkg "proj/cmd" ["github.com/x/a"] [] [], mkPkg "github.com/x/a" ["github.com/x/b"] [] [],
    mkPkg "github.com/x/b" [] [] []]

/-- The import paths a table resolves. -/
def tableNames (table : List Package) : List String := table.map (fun p => p.ImportPath)

/-- All import lists of a record. -/
def allImports (pkg : Package) : List String :=
  pkg.Imports ++ pkg.TestImports ++ pkg.XTestImports

/-- Two records list the same import paths, in whatever order. -/
def SameImports (a b : Package) : Prop :=
  (∀ q, q ∈ a.Imports ↔ q ∈ b.Imports) ∧ (∀ q, q ∈ a.TestImports ↔ q ∈ b.TestImports) ∧
    (∀ q, q ∈ a.XTestImports ↔ q ∈ b.XTestImports)

/-- Two resolvers describe the same import graph: they agree on the
standard-library predicate and on which fetches succeed, and the records of a
path list the same imports up to order. -/
def SameGraph {ε : Type} (r r2 : Resolver ε) : Prop :=
  (∀ p, isStd r2 p = isStd r p) ∧
  (∀ p pkg, r.importFull p = .ok pkg → ∃ pkg2, r2.importFull p = .ok pkg2 ∧ SameImports pkg pkg2) ∧
  (∀ p pkg2, r2.importFull p = .ok pkg2 → ∃ pkg, r.importFull p = .ok pkg ∧ SameImports pkg pkg2)

/-- The record of an `Except` value, for reading a list of successful fetches. -/
def recordOf {ε : Type} : Except ε Package → Package
  | .ok pkg => pkg
  | .error _ => default

/-- A project whose import `missing/x` does not resolve. -/
def failTable : List Package :=
  [mkPkg "proj" ["dep/a", "missing/x", "dep/b"] [] [], mkPkg "dep/a" [] [] [],
    mkPkg "dep/b" [] [] []]

/-- A resolver whose locate-only lookup fails for every path, while the full
fetch resolves the packages of `table`. -/
def probeFailResolver (table : List Package) : Resolver String :=
  { importFull := (tableResolver table).importFull
    importFind := fun path => .error ("cannot find package " ++ path) }

/-! ## Specification vocabulary for the traversal -/

/-- The set reached by the traversal rules: the seeds that are not
standard-library, and every non-standard-library path in one of the `sets` of
a successfully fetched member. -/
inductive Closure {ε : Type} (r : Resolver ε) (paths : GoMap Bool) : String → Prop
  | seed (p : String) : p ∈ GoMap.keys paths → isStd r p = false → Closure r paths p
  | dep (p q : String) (pkg : Package) (set : List String) :
      Closure r paths p → r.importFull p = .ok pkg → set ∈ analyzeSets paths p pkg →
      q ∈ set → isStd r q = false → Closure r paths q

/-- The invariant of `d.packages`. -/
structure StateOK {ε : Type} (r : Resolver ε) (paths : GoMap Bool) (d : State) : Prop where
  nodup : d.keys.Nodup
  records : ∀ p pkg, (p, pkg) ∈ d.packages → r.importFull p = .ok pkg
  nonstd : ∀ p ∈ d.keys, isStd r p = false
  reach : ∀ p ∈ d.keys, Closure r paths p

/-- All dependencies that `analyze` descends into from `p` are keys of `d.packages`. -/
def ClosedAt {ε : Type} (r : Resolver ε) (paths : GoMap Bool) (d : State) (p : String) : Prop :=
  ∀ pkg, r.importFull p = .ok pkg → ∀ set ∈ analyzeSets paths p pkg, ∀ q ∈ set,
    isStd r q = false → q ∈ d.keys

/-- The postcondition of `analyze` and of the loops around it, started in `d`
on the targets `T`. -/
def Post {ε : Type} (r : Resolver ε) (paths : GoMap Bool) (T : String → Prop) (d : State) :
    Option ε × State → Prop
  | (none, d1) =>
    StateOK r paths d1 ∧ d1.fetched = d1.keys ∧ (∃ t, d1.keys = d.keys ++ t) ∧
      (∀ p ∈ d1.keys, p ∉ d.keys → ClosedAt r paths d1 p) ∧
      ∀ q, T q → isStd r q = false → q ∈ d1.keys
  | (some e, d1) =>
    StateOK r paths d1 ∧
      ∃ p, Closure r paths p ∧ r.importFull p = .error e ∧ d1.fetched = d1.keys ++ [p] ∧
        p ∉ d1.keys

/-- The three closure conditions on a set `S` of import paths: (1) `S` holds
every seed that is not standard-library, (2) with `p` it holds every
non-standard-library path in `Imports(p)`, (3) with a seed `p` it holds every
non-standard-library path in `TestImports(p)` or `XTestImports(p)`. -/
def SeedClosed {ε : Type} (r : Resolver ε) (paths : GoMap Bool) (S : String → Prop) : Prop :=
  (∀ p, p ∈ GoMap.keys paths → isStd r p = false → S p) ∧
  (∀ p pkg q, S p → r.importFull p = .ok pkg → q ∈ pkg.Imports → isStd r q = false → S q) ∧
  (∀ p pkg q, S p → p ∈ GoMap.keys paths → r.importFull p = .ok pkg →
    (q ∈ pkg.TestImports ∨ q ∈ pkg.XTestImports) → isStd r q = false → S q)

/-- Membership in the least set satisfying `SeedClosed`. -/
def Reached {ε : Type} (r : Resolver ε) (paths : GoMap Bool) (p : String) : Prop :=
  ∀ S : String → Prop, SeedClosed r paths S → S p

/-- No standard-library path is a key of `d.packages` or was fully fetched. -/
def NoStd {ε : Type} (r : Resolver ε) (d : State) : Prop :=
  ∀ p, isStd r p = true → p ∉ d.keys ∧ p ∉ d.fetched

/-- Reachability through non-test imports: `ImportReach r a b` when `b` is `a`
or is reached from `a` along `Imports` edges of successfully fetched records. -/
inductive ImportReach {ε : Type} (r : Resolver ε) (a : String) : String → Prop
  | refl : ImportReach r a a
  | step (p q : String) (pkg : Package) :
      ImportReach r a p → r.importFull p = .ok pkg → q ∈ pkg.Imports → ImportReach r a q

/-- What one call of the loop body is required to satisfy. -/
def BodySpec {ε : Type} (r : Resolver ε) (paths : GoMap Bool)
    (f : String → State → Option (Option ε × State)) : Prop :=
  ∀ dep d res, StateOK r paths d → d.fetched = d.keys →
    (isStd r dep = false → Closure r paths dep) → f dep d = some res →
    Post r paths (fun q => q = dep) d res

/-- The loop body returns whenever at most `n - 1` paths of `L` are still unvisited. -/
def BodyTotal {ε : Type} (r : Resolver ε) (paths : GoMap Bool) (L : List String) (n : Nat)
    (f : String → State → Option (Option ε × State)) : Prop :=
  ∀ dep d, StateOK r paths d → d.fetched = d.keys →
    (isStd r dep = false → Closure r paths dep) → L.length < n + d.keys.length →
    ∃ res, f dep d = some res

/-! ## Lemmas on maps -/

theorem GoMap.get_isSome_iff {α : Type} (m : GoMap α) (k : String) :
    (GoMap.get m k).isSome = true ↔ k ∈ GoMap.keys m := by
  induction m with
  | nil => simp [GoMap.get, GoMap.keys]
  | cons hd tl ih =>
    obtain ⟨k1, v1⟩ := hd
    by_cases h : k1 = k
    · simp [GoMap.get, GoMap.keys, h]
    · have h2 : ¬ k = k1 := fun e => h e.symm
      simp [GoMap.get, h, h2, GoMap.keys] at ih ⊢
      exact ih

theorem GoMap.get_eq_none_iff {α : Type} (m : GoMap α) (k : String) :
    GoMap.get m k = none ↔ k ∉ GoMap.keys m := by
  rw [← GoMap.get_isSome_iff]
  cases GoMap.get m k <;> simp

theorem GoMap.mem_of_get {α : Type} (m : GoMap α) (k : String) (v : α)
    (h : GoMap.get m k = some v) : (k, v) ∈ m := by
  induction m with
  | nil => simp [GoMap.get] at h
  | cons hd tl ih =>
    obtain ⟨k1, v1⟩ := hd
    by_cases hk : k1 = k
    · simp [GoMap.get, hk] at h
      simp [hk, h]
    · simp [GoMap.get, hk] at h
      exact List.mem_cons_of_mem _ (ih h)

theorem GoMap.get_of_mem {α : Type} (m : GoMap α) (k : String) (v : α)
    (hn : (GoMap.keys m).Nodup) (h : (k, v) ∈ m) : GoMap.get m k = some v := by
  induction m with
  | nil => simp at h
  | cons hd tl ih =>
    obtain ⟨k1, v1⟩ := hd
    simp only [GoMap.keys, List.map_cons, List.nodup_cons] at hn
    rcases List.mem_cons.mp h with h1 | h1
    · cases h1
      simp [GoMap.get]
    · have hk : k ∈ List.map Prod.fst tl := List.mem_map.mpr ⟨(k, v), h1, rfl⟩
      have hne : ¬ k1 = k := fun e => hn.1 (e ▸ hk)
      simp only [GoMap.get, hne, if_false]
      exact ih hn.2 h1

theorem GoMap.set_of_not_mem {α : Type} (m : GoMap α) (k : String) (v : α)
    (h : k ∉ GoMap.keys m) : GoMap.set m k v = m ++ [(k, v)] := by
  induction m with
  | nil => rfl
  | cons hd tl ih =>
    obtain ⟨k1, v1⟩ := hd
    simp only [GoMap.keys, List.map_cons, List.mem_cons, not_or] at h
    have hne : ¬ k1 = k := fun e => h.1 e.symm
    simp only [GoMap.set, hne, if_false, List.cons_append]
    rw [ih h.2]

theorem testEnabled_mem (paths : GoMap Bool) (p : String) (h : testEnabled paths p = true) :
    p ∈ GoMap.keys paths := by
  rw [← GoMap.get_isSome_iff]
  unfold testEnabled at h
  cases hg : GoMap.get paths p with
  | none => simp [hg] at h
  | some b => rfl

theorem testEnabled_of_mem (paths : GoMap Bool) (p : String)
    (hall : ∀ kv ∈ paths, kv.2 = true) (h : p ∈ GoMap.keys paths) :
    testEnabled paths p = true := by
  unfold testEnabled
  cases hg : GoMap.get paths p with
  | none => exact absurd h ((GoMap.get_eq_none_iff paths p).mp hg)
  | some b =>
    have := hall _ (GoMap.mem_of_get paths p b hg)
    simpa using this

/-! ## Partial correctness of the traversal -/

theorem ClosedAt.mono {ε : Type} {r : Resolver ε} {paths : GoMap Bool} {d d1 : State}
    {p : String} (h : ClosedAt r paths d p) (hsub : ∀ q ∈ d.keys, q ∈ d1.keys) :
    ClosedAt r paths d1 p :=
  fun pkg hp set hs q hq hstd => hsub q (h pkg hp set hs q hq hstd)

theorem Post.weaken {ε : Type} {r : Resolver ε} {paths : GoMap Bool} {T U : String → Prop}
    {d : State} {res : Option ε × State} (h : Post r paths T d res) (hTU : ∀ q, U q → T q) :
    Post r paths U d res := by
  obtain ⟨out, d1⟩ := res
  cases out with
  | none =>
    obtain ⟨h1, h2, h3, h4, h5⟩ := h
    exact ⟨h1, h2, h3, h4, fun q hq => h5 q (hTU q hq)⟩
  | some e => exact h

/-- Sequencing two successful stretches of the traversal. -/
theorem Post.seq {ε : Type} {r : Resolver ε} {paths : GoMap Bool} {T U : String → Prop}
    {d d1 : State} {res : Option ε × State}
    (h1 : Post r paths T d (none, d1)) (h2 : Post r paths U d1 res) :
    Post r paths (fun q => T q ∨ U q) d res := by
  obtain ⟨out, d2⟩ := res
  cases out with
  | some e => exact h2
  | none =>
    obtain ⟨_, _, ⟨t1, ht1⟩, hc1, hT⟩ := h1
    obtain ⟨ok2, lg2, ⟨t2, ht2⟩, hc2, hU⟩ := h2
    have hsub : ∀ q ∈ d1.keys, q ∈ d2.keys := by
      intro q hq
      rw [ht2]
      exact List.mem_append_left _ hq
    refine ⟨ok2, lg2, ⟨t1 ++ t2, by rw [ht2, ht1, List.append_assoc]⟩, ?_, ?_⟩
    · intro p hp hnp
      by_cases hp1 : p ∈ d1.keys
      · exact (hc1 p hp1 hnp).mono hsub
      · exact hc2 p hp hp1
    · intro q hq hstd
      rcases hq with hq | hq
      · exact hsub q (hT q hq hstd)
      · exact hU q hq hstd

theorem Post.refl {ε : Type} {r : Resolver ε} {paths : GoMap Bool} {d : State}
    (hok : StateOK r paths d) (hlog : d.fetched = d.keys) :
    Post r paths (fun _ => False) d ((none : Option ε), d) :=
  ⟨hok, hlog, ⟨[], by simp⟩, fun p hp hnp => absurd hp hnp, fun _ hq => hq.elim⟩

theorem forDeps_post {ε : Type} {r : Resolver ε} {paths : GoMap Bool}
    {f : String → State → Option (Option ε × State)} (hf : BodySpec r paths f) :
    ∀ (l : List String) (d : State) (res : Option ε × State),
      StateOK r paths d → d.fetched = d.keys →
      (∀ q ∈ l, isStd r q = false → Closure r paths q) →
      forDeps f l d = some res → Post r paths (fun q => q ∈ l) d res := by
  intro l
  induction l with
  | nil =>
    intro d res hok hlog _ h
    simp only [forDeps, Option.some.injEq] at h
    subst h
    exact (Post.refl hok hlog).weaken (by simp)
  | cons dep rest ih =>
    intro d res hok hlog hl h
    simp only [forDeps] at h
    cases hfd : f dep d with
    | none => simp [hfd] at h
    | some res1 =>
      obtain ⟨out1, d1⟩ := res1
      have hp1 := hf dep d (out1, d1) hok hlog (hl dep (List.mem_cons_self _ _)) hfd
      cases out1 with
      | some e =>
        simp only [hfd, Option.some.injEq] at h
        subst h
        exact hp1
      | none =>
        simp only [hfd] at h
        have hp2 := ih d1 res hp1.1 hp1.2.1
          (fun q hq => hl q (List.mem_cons_of_mem _ hq)) h
        exact (Post.seq hp1 hp2).weaken (by
          intro q hq
          rcases List.mem_cons.mp hq with h1 | h1
          · exact Or.inl h1
          · exact Or.inr h1)

theorem forSets_post {ε : Type} {r : Resolver ε} {paths : GoMap Bool}
    {f : String → State → Option (Option ε × State)} (hf : BodySpec r paths f) :
    ∀ (sets : List (List String)) (d : State) (res : Option ε × State),
      StateOK r paths d → d.fetched = d.keys →
      (∀ set ∈ sets, ∀ q ∈ set, isStd r q = false → Closure r paths q) →
      forSets f sets d = some res → Post r paths (fun q => ∃ set ∈ sets, q ∈ set) d res := by
  intro sets
  induction sets with
  | nil =>
    intro d res hok hlog _ h
    simp only [forSets, Option.some.injEq] at h
    subst h
    exact (Post.refl hok hlog).weaken (by simp)
  | cons set rest ih =>
    intro d res hok hlog hl h
    simp only [forSets] at h
    cases hfd : forDeps f set d with
    | none => simp [hfd] at h
    | some res1 =>
      obtain ⟨out1, d1⟩ := res1
      have hp1 := forDeps_post hf set d (out1, d1) hok hlog
        (hl set (List.mem_cons_self _ _)) hfd
      cases out1 with
      | some e =>
        simp only [hfd, Option.some.injEq] at h
        subst h
        exact hp1
      | none =>
        simp only [hfd] at h
        have hp2 := ih d1 res hp1.1 hp1.2.1
          (fun s hs => hl s (List.mem_cons_of_mem _ hs)) h
        exact (Post.seq hp1 hp2).weaken (by
          rintro q ⟨s, hs, hq⟩
          rcases List.mem_cons.mp hs with h1 | h1
          · exact Or.inl (h1 ▸ hq)
          · exact Or.inr ⟨s, h1, hq⟩)

/-- The state right after `d.packages[path] = pkg` satisfies the invariant. -/
theorem StateOK.record {ε : Type} {r : Resolver ε} {paths : GoMap Bool} {d : State}
    {path : String} {pkg : Package} (hok : StateOK r paths d) (hnew : path ∉ d.keys)
    (hstd : isStd r path = false) (hreach : Closure r paths path)
    (hpkg : r.importFull path = .ok pkg) :
    StateOK r paths
      { packages := GoMap.set d.packages path pkg, fetched := d.fetched ++ [path] } := by
  have hset := GoMap.set_of_not_mem d.packages path pkg hnew
  have hkeys : State.keys (State.mk (GoMap.set d.packages path pkg) (d.fetched ++ [path]))
      = d.keys ++ [path] := by
    simp [State.keys, GoMap.keys, hset]
  refine ⟨?_, ?_, ?_, ?_⟩
  · rw [hkeys]
    exact List.Nodup.append hok.nodup (List.nodup_singleton _) (by
      intro a ha hb
      rw [List.mem_singleton] at hb
      exact hnew (hb ▸ ha))
  · intro p pk hmem
    simp only [hset, List.mem_append, List.mem_singleton, Prod.mk.injEq] at hmem
    rcases hmem with h | ⟨h1, h2⟩
    · exact hok.records p pk h
    · rw [h1, h2]; exact hpkg
  · intro p hp
    rw [hkeys, List.mem_append, List.mem_singleton] at hp
    rcases hp with h | h
    · exact hok.nonstd p h
    · rw [h]; exact hstd
  · intro p hp
    rw [hkeys, List.mem_append, List.mem_singleton] at hp
    rcases hp with h | h
    · exact hok.reach p h
    · rw [h]; exact hreach

theorem analyze_post {ε : Type} (r : Resolver ε) (paths : GoMap Bool) :
    ∀ fuel : Nat, BodySpec r paths (fun dep d => analyze r paths fuel dep d) := by
  intro fuel
  induction fuel with
  | zero =>
    intro dep d res _ _ _ h
    have h0 : analyze r paths 0 dep d = some res := h
    simp [analyze] at h0
  | succ fuel ih =>
    intro path d res hok hlog hreach h0
    have h : analyze r paths (fuel + 1) path d = some res := h0
    simp only [analyze] at h
    by_cases hstd : isStd r path = true
    · simp only [hstd, if_true, Option.some.injEq] at h
      subst h
      refine ⟨hok, hlog, ⟨[], by simp⟩, fun p hp hnp => absurd hp hnp, ?_⟩
      intro q hq hq0
      subst hq
      rw [hstd] at hq0
      exact absurd hq0 (by simp)
    · have hstd0 : isStd r path = false := by simpa using hstd
      simp only [hstd0, Bool.false_eq_true, if_false] at h
      by_cases hvis : (GoMap.get d.packages path).isSome = true
      · simp only [hvis, if_true, Option.some.injEq] at h
        subst h
        refine ⟨hok, hlog, ⟨[], by simp⟩, fun p hp hnp => absurd hp hnp, ?_⟩
        intro q hq _
        subst hq
        exact (GoMap.get_isSome_iff _ _).mp hvis
      · simp only [hvis, Bool.false_eq_true, if_false] at h
        have hnew : path ∉ d.keys := fun hk => hvis ((GoMap.get_isSome_iff _ _).mpr hk)
        cases hfull : r.importFull path with
        | error e =>
          simp only [hfull, Option.some.injEq] at h
          subst h
          exact ⟨⟨hok.nodup, hok.records, hok.nonstd, hok.reach⟩, path, hreach hstd0, hfull,
            by simp [State.keys, hlog], hnew⟩
        | ok pkg =>
          simp only [hfull] at h
          have hok1 := hok.record hnew hstd0 (hreach hstd0) hfull
          have hkeys : State.keys (State.mk (GoMap.set d.packages path pkg)
              (d.fetched ++ [path])) = d.keys ++ [path] := by
            simp [State.keys, GoMap.keys, GoMap.set_of_not_mem d.packages path pkg hnew]
          have hlog1 : (State.mk (GoMap.set d.packages path pkg) (d.fetched ++ [path])).fetched
              = State.keys (State.mk (GoMap.set d.packages path pkg)
                  (d.fetched ++ [path])) := by
            rw [hkeys, hlog]
          have hp := forSets_post ih (analyzeSets paths path pkg) _ res hok1 hlog1
            (fun set hs q hq hq0 => Closure.dep path q pkg set (hreach hstd0) hfull hs hq hq0) h
          obtain ⟨out, d2⟩ := res
          cases out with
          | some e => exact hp
          | none =>
            obtain ⟨ok2, lg2, ⟨t, ht⟩, hc, hT⟩ := hp
            rw [hkeys] at ht
            have hpath : path ∈ d2.keys := by
              rw [ht]; simp
            refine ⟨ok2, lg2, ⟨[path] ++ t, by rw [ht, List.append_assoc]⟩, ?_, ?_⟩
            · intro p hp2 hnp
              by_cases hpp : p = path
              · subst hpp
                intro pk hpk set hs q hq hq0
                rw [hfull] at hpk
                cases hpk
                exact hT q ⟨set, hs, hq⟩ hq0
              · apply hc p hp2
                rw [hkeys, List.mem_append, List.mem_singleton]
                exact fun hh => hh.elim hnp hpp
            · intro q hq _
              subst hq
              exact hpath

/-! ## Termination of the traversal -/

theorem StateOK.length_le {ε : Type} {r : Resolver ε} {paths : GoMap Bool} {d : State}
    (hok : StateOK r paths d) (L : List String) (hL : ∀ p, Closure r paths p → p ∈ L) :
    d.keys.length ≤ L.length :=
  (List.subperm_of_subset hok.nodup (fun p hp => hL p (hok.reach p hp))).length_le

theorem forDeps_total {ε : Type} {r : Resolver ε} {paths : GoMap Bool} {L : List String}
    {n : Nat} {f : String → State → Option (Option ε × State)} (hf : BodySpec r paths f)
    (ht : BodyTotal r paths L n f) :
    ∀ (l : List String) (d : State), StateOK r paths d → d.fetched = d.keys →
      (∀ q ∈ l, isStd r q = false → Closure r paths q) → L.length < n + d.keys.length →
      ∃ res, forDeps f l d = some res := by
  intro l
  induction l with
  | nil => intro d _ _ _ _; exact ⟨_, rfl⟩
  | cons dep rest ih =>
    intro d hok hlog hl hn
    obtain ⟨res1, hfd⟩ := ht dep d hok hlog (hl dep (List.mem_cons_self _ _)) hn
    obtain ⟨out1, d1⟩ := res1
    have hp1 := hf dep d (out1, d1) hok hlog (hl dep (List.mem_cons_self _ _)) hfd
    cases out1 with
    | some e => exact ⟨(some e, d1), by simp only [forDeps, hfd]⟩
    | none =>
      obtain ⟨ok1, lg1, ⟨t, ht1⟩, _, _⟩ := hp1
      have hn1 : L.length < n + d1.keys.length := by
        rw [ht1, List.length_append]; omega
      obtain ⟨res, hres⟩ := ih d1 ok1 lg1 (fun q hq => hl q (List.mem_cons_of_mem _ hq)) hn1
      exact ⟨res, by simp only [forDeps, hfd, hres]⟩

theorem forSets_total {ε : Type} {r : Resolver ε} {paths : GoMap Bool} {L : List String}
    {n : Nat} {f : String → State → Option (Option ε × State)} (hf : BodySpec r paths f)
    (ht : BodyTotal r paths L n f) :
    ∀ (sets : List (List String)) (d : State), StateOK r paths d → d.fetched = d.keys →
      (∀ set ∈ sets, ∀ q ∈ set, isStd r q = false → Closure r paths q) →
      L.length < n + d.keys.length → ∃ res, forSets f sets d = some res := by
  intro sets
  induction sets with
  | nil => intro d _ _ _ _; exact ⟨_, rfl⟩
  | cons set rest ih =>
    intro d hok hlog hl hn
    obtain ⟨res1, hfd⟩ := forDeps_total hf ht set d hok hlog
      (hl set (List.mem_cons_self _ _)) hn
    obtain ⟨out1, d1⟩ := res1
    have hp1 := forDeps_post hf set d (out1, d1) hok hlog (hl set (List.mem_cons_self _ _)) hfd
    cases out1 with
    | some e => exact ⟨(some e, d1), by simp only [forSets, hfd]⟩
    | none =>
      obtain ⟨ok1, lg1, ⟨t, ht1⟩, _, _⟩ := hp1
      have hn1 : L.length < n + d1.keys.length := by
        rw [ht1, List.length_append]; omega
      obtain ⟨res, hres⟩ := ih d1 ok1 lg1 (fun s hs => hl s (List.mem_cons_of_mem _ hs)) hn1
      exact ⟨res, by simp only [forSets, hfd, hres]⟩

theorem analyze_total {ε : Type} (r : Resolver ε) (paths : GoMap Bool) (L : List String)
    (hL : ∀ p, Closure r paths p → p ∈ L) :
    ∀ fuel : Nat, BodyTotal r paths L fuel (fun dep d => analyze r paths fuel dep d) := by
  intro fuel
  induction fuel with
  | zero =>
    intro dep d hok _ _ hn
    have := hok.length_le L hL
    omega
  | succ fuel ih =>
    intro path d hok hlog hreach hn
    show ∃ res, analyze r paths (fuel + 1) path d = some res
    simp only [analyze]
    by_cases hstd : isStd r path = true
    · exact ⟨(none, d), by simp only [hstd, if_true]⟩
    · have hstd0 : isStd r path = false := by simpa using hstd
      simp only [hstd0, Bool.false_eq_true, if_false]
      by_cases hvis : (GoMap.get d.packages path).isSome = true
      · exact ⟨(none, d), by simp only [hvis, if_true]⟩
      · simp only [hvis, Bool.false_eq_true, if_false]
        have hnew : path ∉ d.keys := fun hk => hvis ((GoMap.get_isSome_iff _ _).mpr hk)
        cases hfull : r.importFull path with
        | error e => exact ⟨_, rfl⟩
        | ok pkg =>
          have hok1 := hok.record hnew hstd0 (hreach hstd0) hfull
          have hkeys : State.keys (State.mk (GoMap.set d.packages path pkg)
              (d.fetched ++ [path])) = d.keys ++ [path] := by
            simp [State.keys, GoMap.keys, GoMap.set_of_not_mem d.packages path pkg hnew]
          have hlog1 : (State.mk (GoMap.set d.packages path pkg) (d.fetched ++ [path])).fetched
              = State.keys (State.mk (GoMap.set d.packages path pkg)
                  (d.fetched ++ [path])) := by
            rw [hkeys, hlog]
          exact forSets_total (analyze_post r paths fuel) ih (analyzeSets paths path pkg) _
            hok1 hlog1
            (fun set hs q hq hq0 => Closure.dep path q pkg set (hreach hstd0) hfull hs hq hq0)
            (by rw [hkeys, List.length_append, List.length_singleton]; omega)

/-! ## More fuel does not change a result -/

theorem forDeps_mono {ε : Type} {f g : String → State → Option (Option ε × State)}
    (hfg : ∀ dep d res, f dep d = some res → g dep d = some res) :
    ∀ (l : List String) (d : State) (res : Option ε × State),
      forDeps f l d = some res → forDeps g l d = some res := by
  intro l
  induction l with
  | nil => intro d res h; exact h
  | cons dep rest ih =>
    intro d res h
    simp only [forDeps] at h ⊢
    cases hfd : f dep d with
    | none => simp [hfd] at h
    | some res1 =>
      obtain ⟨out1, d1⟩ := res1
      rw [hfg dep d _ hfd]
      cases out1 with
      | some e => simpa [hfd] using h
      | none =>
        simp only [hfd] at h
        exact ih d1 res h

theorem forSets_mono {ε : Type} {f g : String → State → Option (Option ε × State)}
    (hfg : ∀ dep d res, f dep d = some res → g dep d = some res) :
    ∀ (sets : List (List String)) (d : State) (res : Option ε × State),
      forSets f sets d = some res → forSets g sets d = some res := by
  intro sets
  induction sets with
  | nil => intro d res h; exact h
  | cons set rest ih =>
    intro d res h
    simp only [forSets] at h ⊢
    cases hfd : forDeps f set d with
    | none => simp [hfd] at h
    | some res1 =>
      obtain ⟨out1, d1⟩ := res1
      rw [forDeps_mono hfg set d _ hfd]
      cases out1 with
      | some e => simpa [hfd] using h
      | none =>
        simp only [hfd] at h
        exact ih d1 res h

theorem analyze_succ {ε : Type} (r : Resolver ε) (paths : GoMap Bool) :
    ∀ (fuel : Nat) (path : String) (d : State) (res : Option ε × State),
      analyze r paths fuel path d = some res → analyze r paths (fuel + 1) path d = some res := by
  intro fuel
  induction fuel with
  | zero => intro path d res h; simp [analyze] at h
  | succ fuel ih =>
    intro path d res h
    rw [analyze] at h ⊢
    split at h
    · rename_i h1; rw [if_pos h1]; exact h
    · rename_i h1
      rw [if_neg h1]
      split at h
      · rename_i h2; rw [if_pos h2]; exact h
      · rename_i h2
        rw [if_neg h2]
        cases hfull : r.importFull path with
        | error e => simpa [hfull] using h
        | ok pkg =>
          simp only [hfull] at h ⊢
          exact forSets_mono ih _ _ _ h

theorem analyze_mono {ε : Type} (r : Resolver ε) (paths : GoMap Bool) (fuel k : Nat)
    (path : String) (d : State) (res : Option ε × State)
    (h : analyze r paths fuel path d = some res) :
    analyze r paths (fuel + k) path d = some res := by
  induction k with
  | zero => exact h
  | succ k ih => exact analyze_succ r paths (fuel + k) path d res ih

theorem traverse_mono {ε : Type} (r : Resolver ε) (paths : GoMap Bool) (fuel k : Nat)
    (res : Option ε × State) (h : traverse r fuel paths = some res) :
    traverse r (fuel + k) paths = some res :=
  forDeps_mono (fun dep d res1 h1 => analyze_mono r paths fuel k dep d res1 h1) _ _ _ h

/-! ## The seed loop -/

theorem stateOK_init {ε : Type} (r : Resolver ε) (paths : GoMap Bool) :
    StateOK r paths State.init :=
  ⟨List.nodup_nil, fun _ _ h => by simp [State.init] at h,
    fun _ h => by simp [State.init, State.keys, GoMap.keys] at h,
    fun _ h => by simp [State.init, State.keys, GoMap.keys] at h⟩

theorem traverse_post {ε : Type} (r : Resolver ε) (paths : GoMap Bool) (fuel : Nat)
    (res : Option ε × State) (h : traverse r fuel paths = some res) :
    Post r paths (fun q => q ∈ GoMap.keys paths) State.init res :=
  forDeps_post (analyze_post r paths fuel) _ _ _ (stateOK_init r paths) rfl
    (fun q hq hstd => Closure.seed q hq hstd) h

theorem traverse_total {ε : Type} (r : Resolver ε) (paths : GoMap Bool) (L : List String)
    (hL : ∀ p, Closure r paths p → p ∈ L) (fuel : Nat) (hfuel : L.length < fuel) :
    ∃ res, traverse r fuel paths = some res :=
  forDeps_total (analyze_post r paths fuel) (analyze_total r paths L hL fuel) _ _
    (stateOK_init r paths) rfl (fun q hq hstd => Closure.seed q hq hstd)
    (by simp only [State.init, State.keys, GoMap.keys, List.map_nil, List.length_nil]; omega)

theorem Closure.nonstd {ε : Type} {r : Resolver ε} {paths : GoMap Bool} {p : String}
    (h : Closure r paths p) : isStd r p = false := by
  cases h with
  | seed _ _ h0 => exact h0
  | dep _ _ _ _ _ _ _ _ h0 => exact h0

/-- After a successful seed loop the keys of `d.packages` are exactly the closure. -/
theorem keys_iff_closure {ε : Type} {r : Resolver ε} {paths : GoMap Bool} {d : State}
    (h : Post r paths (fun q => q ∈ GoMap.keys paths) State.init ((none : Option ε), d))
    (p : String) : p ∈ d.keys ↔ Closure r paths p := by
  obtain ⟨hok, _, _, hc, hT⟩ := h
  constructor
  · exact hok.reach p
  · intro hp
    induction hp with
    | seed p hp hstd => exact hT p hp hstd
    | dep p q pkg set _ hfull hs hq hstd ih =>
      exact hc p ih (by simp [State.init, State.keys, GoMap.keys]) pkg hfull set hs q hq hstd

theorem values_eq_fetch {ε : Type} (r : Resolver ε) (m : GoMap Package)
    (h : ∀ p pkg, (p, pkg) ∈ m → r.importFull p = .ok pkg) :
    (GoMap.values m).map Except.ok = (GoMap.keys m).map r.importFull := by
  induction m with
  | nil => rfl
  | cons hd tl ih =>
    obtain ⟨k, v⟩ := hd
    simp only [GoMap.values, GoMap.keys, List.map_cons, List.cons.injEq]
    exact ⟨(h k v (List.mem_cons_self _ _)).symm,
      ih (fun p pkg hm => h p pkg (List.mem_cons_of_mem _ hm))⟩

theorem mem_analyzeSets (paths : GoMap Bool) (p q : String) (pkg : Package) :
    (∃ set ∈ analyzeSets paths p pkg, q ∈ set) ↔
      (q ∈ pkg.Imports ∨
        (testEnabled paths p = true ∧ (q ∈ pkg.TestImports ∨ q ∈ pkg.XTestImports))) := by
  unfold analyzeSets
  cases testEnabled paths p <;> simp

theorem Closure.reached {ε : Type} {r : Resolver ε} {paths : GoMap Bool} {p : String}
    (h : Closure r paths p) : Reached r paths p := by
  intro S hS
  induction h with
  | seed p hp hstd => exact hS.1 p hp hstd
  | dep p q pkg set _ hfull hs hq hstd ih =>
    rcases (mem_analyzeSets paths p q pkg).mp ⟨set, hs, hq⟩ with h1 | ⟨h1, h2⟩
    · exact hS.2.1 p pkg q ih hfull h1 hstd
    · exact hS.2.2 p pkg q ih (testEnabled_mem paths p h1) hfull h2 hstd

theorem seedClosed_closure {ε : Type} (r : Resolver ε) (paths : GoMap Bool)
    (hall : ∀ kv ∈ paths, kv.2 = true) : SeedClosed r paths (Closure r paths) := by
  refine ⟨fun p hp hstd => Closure.seed p hp hstd, ?_, ?_⟩
  · intro p pkg q hp hfull hq hstd
    obtain ⟨set, hs, hqs⟩ := (mem_analyzeSets paths p q pkg).mpr (Or.inl hq)
    exact Closure.dep p q pkg set hp hfull hs hqs hstd
  · intro p pkg q hp hseed hfull hq hstd
    obtain ⟨set, hs, hqs⟩ := (mem_analyzeSets paths p q pkg).mpr
      (Or.inr ⟨testEnabled_of_mem paths p hall hseed, hq⟩)
    exact Closure.dep p q pkg set hp hfull hs hqs hstd

theorem reached_iff_closure {ε : Type} (r : Resolver ε) (paths : GoMap Bool)
    (hall : ∀ kv ∈ paths, kv.2 = true) (p : String) :
    Reached r paths p ↔ Closure r paths p :=
  ⟨fun h => h _ (seedClosed_closure r paths hall), Closure.reached⟩

/-- The run of the seed loop when the closure is finite and fetches in it succeed. -/
theorem traverse_success {ε : Type} (r : Resolver ε) (paths : GoMap Bool) (L : List String)
    (hL : ∀ p, Closure r paths p → p ∈ L)
    (hfetch : ∀ p, Closure r paths p → ∃ pkg, r.importFull p = .ok pkg)
    (fuel : Nat) (hfuel : L.length < fuel) :
    ∃ d, traverse r fuel paths = some (none, d) ∧
      Post r paths (fun q => q ∈ GoMap.keys paths) State.init ((none : Option ε), d) := by
  obtain ⟨res, hres⟩ := traverse_total r paths L hL fuel hfuel
  have hp := traverse_post r paths fuel res hres
  obtain ⟨out, d⟩ := res
  cases out with
  | none => exact ⟨d, hres, hp⟩
  | some e =>
    obtain ⟨_, p, hp1, hp2, _, _⟩ := hp
    obtain ⟨pkg, hpkg⟩ := hfetch p hp1
    rw [hpkg] at hp2
    cases hp2

theorem getTransitiveImports_of_traverse {ε : Type} (r : Resolver ε) (paths : GoMap Bool)
    (fuel : Nat) (d : State) (h : traverse r fuel paths = some (none, d)) :
    getTransitiveImports r fuel paths = some (GoMap.values d.packages, none) := by
  simp only [getTransitiveImports, h]

theorem getTransitiveImports_of_error {ε : Type} (r : Resolver ε) (paths : GoMap Bool)
    (fuel : Nat) (d : State) (e : ε) (h : traverse r fuel paths = some (some e, d)) :
    getTransitiveImports r fuel paths = some ([], some e) := by
  simp only [getTransitiveImports, h]

/-- The result of a successful run, for seed maps with all values `true`. -/
theorem result_least_closed {ε : Type} (r : Resolver ε) (paths : GoMap Bool)
    (L : List String) (hall : ∀ kv ∈ paths, kv.2 = true)
    (hfin : ∀ p, Reached r paths p → p ∈ L)
    (hfetch : ∀ p, Reached r paths p → ∃ pkg, r.importFull p = .ok pkg)
    (fuel : Nat) (hfuel : L.length < fuel) :
    ∃ (result : List Package) (keys : List String),
      getTransitiveImports r fuel paths = some (result, none) ∧
      keys.Nodup ∧ (∀ p, p ∈ keys ↔ Reached r paths p) ∧
      result.map Except.ok = keys.map r.importFull := by
  obtain ⟨d, hd, hp⟩ := traverse_success r paths L (fun p hp => hfin p hp.reached)
    (fun p hp => hfetch p hp.reached) fuel hfuel
  refine ⟨GoMap.values d.packages, d.keys, getTransitiveImports_of_traverse r paths fuel d hd,
    hp.1.nodup, ?_, values_eq_fetch r d.packages hp.1.records⟩
  intro p
  rw [keys_iff_closure hp p, reached_iff_closure r paths hall p]

theorem getTransitiveImports_mono {ε : Type} (r : Resolver ε) (paths : GoMap Bool)
    (fuel k : Nat) (res : List Package × Option ε)
    (h : getTransitiveImports r fuel paths = some res) :
    getTransitiveImports r (fuel + k) paths = some res := by
  unfold getTransitiveImports at h ⊢
  cases ht : traverse r fuel paths with
  | none => simp [ht] at h
  | some x =>
    rw [traverse_mono r paths fuel k x ht]
    simpa [ht] using h

/-! ## Order independence -/

theorem seedClosed_congr_keys {ε : Type} (r : Resolver ε) (paths paths2 : GoMap Bool)
    (hkeys : ∀ p, p ∈ GoMap.keys paths2 ↔ p ∈ GoMap.keys paths) (S : String → Prop)
    (h : SeedClosed r paths S) : SeedClosed r paths2 S :=
  ⟨fun p hp hstd => h.1 p ((hkeys p).mp hp) hstd, h.2.1,
    fun p pkg q hp hseed hfull hq hstd => h.2.2 p pkg q hp ((hkeys p).mp hseed) hfull hq hstd⟩

theorem reached_congr_keys {ε : Type} (r : Resolver ε) (paths paths2 : GoMap Bool)
    (hkeys : ∀ p, p ∈ GoMap.keys paths2 ↔ p ∈ GoMap.keys paths) (p : String) :
    Reached r paths2 p ↔ Reached r paths p :=
  ⟨fun h S hS => h S (seedClosed_congr_keys r paths paths2 hkeys S hS),
    fun h S hS => h S (seedClosed_congr_keys r paths2 paths (fun q => (hkeys q).symm) S hS)⟩

theorem seedClosed_of_sameGraph {ε : Type} (r r2 : Resolver ε) (paths : GoMap Bool)
    (hg : SameGraph r r2) (S : String → Prop) (h : SeedClosed r paths S) :
    SeedClosed r2 paths S := by
  obtain ⟨hstd, _, h21⟩ := hg
  refine ⟨fun p hp hs => h.1 p hp ((hstd p) ▸ hs), ?_, ?_⟩
  · intro p pkg2 q hp hfull hq hs
    obtain ⟨pkg, hpkg, hsame⟩ := h21 p pkg2 hfull
    exact h.2.1 p pkg q hp hpkg ((hsame.1 q).mpr hq) ((hstd q) ▸ hs)
  · intro p pkg2 q hp hseed hfull hq hs
    obtain ⟨pkg, hpkg, hsame⟩ := h21 p pkg2 hfull
    refine h.2.2 p pkg q hp hseed hpkg ?_ ((hstd q) ▸ hs)
    rcases hq with hq | hq
    · exact Or.inl ((hsame.2.1 q).mpr hq)
    · exact Or.inr ((hsame.2.2 q).mpr hq)

theorem sameImports_symm {a b : Package} (h : SameImports a b) : SameImports b a :=
  ⟨fun q => (h.1 q).symm, fun q => (h.2.1 q).symm, fun q => (h.2.2 q).symm⟩

theorem sameGraph_symm {ε : Type} {r r2 : Resolver ε} (h : SameGraph r r2) : SameGraph r2 r :=
  ⟨fun p => (h.1 p).symm,
    fun p pkg2 hp => (h.2.2 p pkg2 hp).imp (fun _ hx => ⟨hx.1, sameImports_symm hx.2⟩),
    fun p pkg hp => (h.2.1 p pkg hp).imp (fun _ hx => ⟨hx.1, sameImports_symm hx.2⟩)⟩

theorem reached_of_sameGraph {ε : Type} (r r2 : Resolver ε) (paths : GoMap Bool)
    (hg : SameGraph r r2) (p : String) : Reached r2 paths p ↔ Reached r paths p :=
  ⟨fun h S hS => h S (seedClosed_of_sameGraph r r2 paths hg S hS),
    fun h S hS => h S (seedClosed_of_sameGraph r2 r paths (sameGraph_symm hg) S hS)⟩

theorem perm_of_map_ok (ε : Type) (a b : List Package)
    (h : (a.map (Except.ok : Package → Except ε Package)).Perm (b.map Except.ok)) :
    a.Perm b := by
  have h2 := h.map (recordOf : Except ε Package → Package)
  simpa [List.map_map, Function.comp_def, recordOf] using h2

/-! ## In-memory resolvers -/

theorem findPkg_mem (table : List Package) (p : String) (pkg : Package)
    (h : findPkg table p = some pkg) : pkg ∈ table ∧ pkg.ImportPath = p := by
  induction table with
  | nil => simp [findPkg] at h
  | cons hd tl ih =>
    by_cases hp : hd.ImportPath = p
    · simp only [findPkg, hp, if_true, Option.some.injEq] at h
      subst h
      exact ⟨List.mem_cons_self _ _, hp⟩
    · simp only [findPkg, hp, if_false] at h
      exact ⟨List.mem_cons_of_mem _ (ih h).1, (ih h).2⟩

theorem findPkg_isSome (table : List Package) (p : String) (h : p ∈ tableNames table) :
    ∃ pkg, findPkg table p = some pkg := by
  induction table with
  | nil => simp [tableNames] at h
  | cons hd tl ih =>
    by_cases hp : hd.ImportPath = p
    · exact ⟨hd, by simp only [findPkg, hp, if_true]⟩
    · simp only [tableNames, List.map_cons, List.mem_cons] at h
      rcases h with h | h
      · exact absurd h.symm hp
      · obtain ⟨pkg, hpkg⟩ := ih h
        exact ⟨pkg, by simp only [findPkg, hp, if_false, hpkg]⟩

theorem tableResolver_full (table : List Package) (p : String) (pkg : Package)
    (h : (tableResolver table).importFull p = .ok pkg) : findPkg table p = some pkg := by
  simp only [tableResolver] at h
  cases hf : findPkg table p with
  | none => simp [hf] at h
  | some x =>
    simp only [hf, Except.ok.injEq] at h
    rw [h]

theorem tableResolver_fetch (table : List Package) (p : String) (h : p ∈ tableNames table) :
    ∃ pkg, (tableResolver table).importFull p = .ok pkg := by
  obtain ⟨pkg, hpkg⟩ := findPkg_isSome table p h
  exact ⟨pkg, by simp only [tableResolver, hpkg]⟩

/-- The closure stays in every list that holds the seeds and every import of
the records of the table. -/
theorem tableResolver_closure (table : List Package) (paths : GoMap Bool) (L : List String)
    (hseeds : ∀ p ∈ GoMap.keys paths, p ∈ L)
    (hclosed : ∀ pkg ∈ table, ∀ q ∈ allImports pkg, q ∈ L) (p : String)
    (h : Closure (tableResolver table) paths p) : p ∈ L := by
  induction h with
  | seed p hp _ => exact hseeds p hp
  | dep p q pkg set _ hfull hs hq _ _ =>
    have hmem := (findPkg_mem table p pkg (tableResolver_full table p pkg hfull)).1
    apply hclosed pkg hmem q
    rcases (mem_analyzeSets paths p q pkg).mp ⟨set, hs, hq⟩ with h1 | ⟨_, h1 | h1⟩
    · simp [allImports, h1]
    · simp [allImports, h1]
    · simp [allImports, h1]

/-! ## The claims on the analyzer -/

/-- Claim C1: for a seed map with all values `true`, a finite reached set and
successful fetches in it, `getTransitiveImports` returns no error and its
result holds exactly one record for each path of the least set closed under
the three rules, namely the record the resolver returns for that path; the
result is the same up to order for any other iteration order of the seeds, and
its paths are the same for a resolver listing sibling imports in another order. -/
theorem getTransitiveImports_least_closed_set {ε : Type} (r : Resolver ε) (paths : GoMap Bool)
    (L : List String) (hall : ∀ kv ∈ paths, kv.2 = true)
    (hfin : ∀ p, Reached r paths p → p ∈ L)
    (hfetch : ∀ p, Reached r paths p → ∃ pkg, r.importFull p = .ok pkg)
    (fuel : Nat) (hfuel : L.length < fuel) :
    ∃ (result : List Package) (keys : List String),
      getTransitiveImports r fuel paths = some (result, none) ∧
      keys.Nodup ∧ (∀ p, p ∈ keys ↔ Reached r paths p) ∧
      result.map Except.ok = keys.map r.importFull ∧
      (∀ (paths2 : GoMap Bool) (fuel2 : Nat), (∀ kv ∈ paths2, kv.2 = true) →
        (∀ p, p ∈ GoMap.keys paths2 ↔ p ∈ GoMap.keys paths) → L.length < fuel2 →
        ∃ result2, getTransitiveImports r fuel2 paths2 = some (result2, none) ∧
          result2.Perm result) ∧
      (∀ (r2 : Resolver ε) (fuel2 : Nat), SameGraph r r2 → L.length < fuel2 →
        ∃ (result2 : List Package) (keys2 : List String),
          getTransitiveImports r2 fuel2 paths = some (result2, none) ∧
          result2.map Except.ok = keys2.map r2.importFull ∧ keys2.Perm keys) := by
  obtain ⟨result, keys, hres, hnd, hkeys, hrec⟩ :=
    result_least_closed r paths L hall hfin hfetch fuel hfuel
  refine ⟨result, keys, hres, hnd, hkeys, hrec, ?_, ?_⟩
  · intro paths2 fuel2 hall2 hk2 hfuel2
    have hiff := reached_congr_keys r paths paths2 hk2
    obtain ⟨result2, keys2, hres2, hnd2, hkeys2, hrec2⟩ :=
      result_least_closed r paths2 L hall2 (fun p hp => hfin p ((hiff p).mp hp))
        (fun p hp => hfetch p ((hiff p).mp hp)) fuel2 hfuel2
    refine ⟨result2, hres2, perm_of_map_ok ε result2 result ?_⟩
    rw [hrec2, hrec]
    apply List.Perm.map
    exact (List.perm_ext_iff_of_nodup hnd2 hnd).mpr
      (fun p => by rw [hkeys2 p, hkeys p, hiff p])
  · intro r2 fuel2 hg hfuel2
    have hiff := reached_of_sameGraph r r2 paths hg
    obtain ⟨result2, keys2, hres2, hnd2, hkeys2, hrec2⟩ :=
      result_least_closed r2 paths L hall (fun p hp => hfin p ((hiff p).mp hp))
        (fun p hp => by
          obtain ⟨pkg, hpkg⟩ := hfetch p ((hiff p).mp hp)
          obtain ⟨pkg2, hpkg2, _⟩ := hg.2.1 p pkg hpkg
          exact ⟨pkg2, hpkg2⟩) fuel2 hfuel2
    exact ⟨result2, keys2, hres2, hrec2, (List.perm_ext_iff_of_nodup hnd2 hnd).mpr
      (fun p => by rw [hkeys2 p, hkeys p, hiff p])⟩

/-- The diamond satisfies the hypotheses of claim C1 and has its conclusion. -/
theorem getTransitiveImports_least_closed_set_witness :
    ∃ (result : List Package) (keys : List String),
      getTransitiveImports (tableResolver diamondTable) 5 [("x/a", true)]
        = some (result, none) ∧
      keys.Nodup ∧ (∀ p, p ∈ keys ↔ Reached (tableResolver diamondTable) [("x/a", true)] p) ∧
      result.map Except.ok = keys.map (tableResolver diamondTable).importFull ∧
      (∀ (paths2 : GoMap Bool) (fuel2 : Nat), (∀ kv ∈ paths2, kv.2 = true) →
        (∀ p, p ∈ GoMap.keys paths2 ↔ p ∈ GoMap.keys [("x/a", true)]) →
        (tableNames diamondTable).length < fuel2 →
        ∃ result2, getTransitiveImports (tableResolver diamondTable) fuel2 paths2
            = some (result2, none) ∧ result2.Perm result) ∧
      (∀ (r2 : Resolver String) (fuel2 : Nat), SameGraph (tableResolver diamondTable) r2 →
        (tableNames diamondTable).length < fuel2 →
        ∃ (result2 : List Package) (keys2 : List String),
          getTransitiveImports r2 fuel2 [("x/a", true)] = some (result2, none) ∧
          result2.map Except.ok = keys2.map r2.importFull ∧ keys2.Perm keys) :=
  getTransitiveImports_least_closed_set (tableResolver diamondTable) [("x/a", true)]
    (tableNames diamondTable) (by decide)
    (fun p hp => tableResolver_closure diamondTable _ _ (by decide) (by decide) p
      ((reached_iff_closure _ _ (by decide) p).mp hp))
    (fun p hp => tableResolver_fetch diamondTable p
      (tableResolver_closure diamondTable _ _ (by decide) (by decide) p
        ((reached_iff_closure _ _ (by decide) p).mp hp)))
    5 (by decide)

/-- Claim C2: when the set of paths reachable from the seeds is finite,
`getTransitiveImports` terminates (every fuel above the size of the set gives a
result, and more fuel gives the same one), cycles included; on the cycle where
A imports B and B imports A, with seed A, the result is the record of A and the
record of B, once each. -/
theorem getTransitiveImports_terminates {ε : Type} (r : Resolver ε) (paths : GoMap Bool)
    (L : List String) (hfin : ∀ p, Closure r paths p → p ∈ L) :
    (∀ fuel, L.length < fuel → ∃ res, getTransitiveImports r fuel paths = some res ∧
      ∀ k, getTransitiveImports r (fuel + k) paths = some res) ∧
    (∀ fuel, 3 ≤ fuel → getTransitiveImports (tableResolver cycleTable) fuel [("A", true)]
      = some ([mkPkg "A" ["B"] [] [], mkPkg "B" ["A"] [] []], none)) := by
  constructor
  · intro fuel hfuel
    obtain ⟨res, hres⟩ := traverse_total r paths L hfin fuel hfuel
    obtain ⟨out, d⟩ := res
    cases out with
    | none =>
      have h := getTransitiveImports_of_traverse r paths fuel d hres
      exact ⟨_, h, fun k => getTransitiveImports_mono r paths fuel k _ h⟩
    | some e =>
      have h := getTransitiveImports_of_error r paths fuel d e hres
      exact ⟨_, h, fun k => getTransitiveImports_mono r paths fuel k _ h⟩
  · intro fuel hfuel
    obtain ⟨k, rfl⟩ := Nat.exists_eq_add_of_le hfuel
    exact getTransitiveImports_mono _ _ 3 k _ (by decide)

/-- The cycle has finitely many reachable paths, and the run on it terminates. -/
theorem getTransitiveImports_terminates_witness :
    (∀ fuel, (tableNames cycleTable).length < fuel →
      ∃ res, getTransitiveImports (tableResolver cycleTable) fuel [("A", true)] = some res ∧
        ∀ k, getTransitiveImports (tableResolver cycleTable) (fuel + k) [("A", true)]
          = some res) ∧
    (∀ fuel, 3 ≤ fuel → getTransitiveImports (tableResolver cycleTable) fuel [("A", true)]
      = some ([mkPkg "A" ["B"] [] [], mkPkg "B" ["A"] [] []], none)) :=
  getTransitiveImports_terminates (tableResolver cycleTable) [("A", true)]
    (tableNames cycleTable)
    (tableResolver_closure cycleTable _ _ (by decide) (by decide))

/-! ## Invariants of the loops -/

theorem forDeps_inv {ε : Type} {f : String → State → Option (Option ε × State)}
    (P : State → Prop) (hf : ∀ dep d res, P d → f dep d = some res → P res.2) :
    ∀ (l : List String) (d : State) (res : Option ε × State),
      P d → forDeps f l d = some res → P res.2 := by
  intro l
  induction l with
  | nil =>
    intro d res hP h
    simp only [forDeps, Option.some.injEq] at h
    subst h
    exact hP
  | cons dep rest ih =>
    intro d res hP h
    simp only [forDeps] at h
    cases hfd : f dep d with
    | none => simp [hfd] at h
    | some res1 =>
      obtain ⟨out1, d1⟩ := res1
      have hP1 := hf dep d _ hP hfd
      cases out1 with
      | some e =>
        simp only [hfd, Option.some.injEq] at h
        subst h
        exact hP1
      | none =>
        simp only [hfd] at h
        exact ih d1 res hP1 h

theorem forSets_inv {ε : Type} {f : String → State → Option (Option ε × State)}
    (P : State → Prop) (hf : ∀ dep d res, P d → f dep d = some res → P res.2) :
    ∀ (sets : List (List String)) (d : State) (res : Option ε × State),
      P d → forSets f sets d = some res → P res.2 := by
  intro sets
  induction sets with
  | nil =>
    intro d res hP h
    simp only [forSets, Option.some.injEq] at h
    subst h
    exact hP
  | cons set rest ih =>
    intro d res hP h
    simp only [forSets] at h
    cases hfd : forDeps f set d with
    | none => simp [hfd] at h
    | some res1 =>
      obtain ⟨out1, d1⟩ := res1
      have hP1 := forDeps_inv P hf set d _ hP hfd
      cases out1 with
      | some e =>
        simp only [hfd, Option.some.injEq] at h
        subst h
        exact hP1
      | none =>
        simp only [hfd] at h
        exact ih d1 res hP1 h

theorem mem_keys_set {α : Type} (m : GoMap α) (k : String) (v : α) (p : String) :
    p ∈ GoMap.keys (GoMap.set m k v) ↔ p ∈ GoMap.keys m ∨ p = k := by
  induction m with
  | nil => simp [GoMap.set, GoMap.keys]
  | cons hd tl ih =>
    obtain ⟨k1, v1⟩ := hd
    by_cases hk : k1 = k
    · subst hk
      simp only [GoMap.set, if_true, GoMap.keys, List.map_cons, List.mem_cons]
      tauto
    · simp only [GoMap.set, hk, if_false, GoMap.keys, List.map_cons, List.mem_cons] at ih ⊢
      rw [ih]
      tauto

/-- Every call of `analyze`, from any state and whatever its outcome, keeps
standard-library paths out of `d.packages` and out of the full fetches. -/
theorem analyze_noStd {ε : Type} (r : Resolver ε) (paths : GoMap Bool) :
    ∀ (fuel : Nat) (path : String) (d : State) (res : Option ε × State),
      NoStd r d → analyze r paths fuel path d = some res → NoStd r res.2 := by
  intro fuel
  induction fuel with
  | zero => intro path d res _ h; simp [analyze] at h
  | succ fuel ih =>
    intro path d res hP h
    rw [analyze] at h
    split at h
    · simp only [Option.some.injEq] at h
      subst h
      exact hP
    · rename_i hstd
      split at h
      · simp only [Option.some.injEq] at h
        subst h
        exact hP
      · have hne : ∀ p, isStd r p = true → p ≠ path := fun p hp e => hstd (e ▸ hp)
        cases hfull : r.importFull path with
        | error e =>
          simp only [hfull, Option.some.injEq] at h
          subst h
          intro p hp
          refine ⟨(hP p hp).1, ?_⟩
          simp only [List.mem_append, List.mem_singleton, not_or]
          exact ⟨(hP p hp).2, hne p hp⟩
        | ok pkg =>
          simp only [hfull] at h
          refine forSets_inv (NoStd r) ih _ _ _ ?_ h
          intro p hp
          constructor
          · simp only [State.keys, mem_keys_set, not_or]
            exact ⟨(hP p hp).1, hne p hp⟩
          · simp only [List.mem_append, List.mem_singleton, not_or]
            exact ⟨(hP p hp).2, hne p hp⟩

theorem isStd_C {ε : Type} (r : Resolver ε) : isStd r "C" = true := by
  simp [isStd]

theorem mem_packages_of_mem_keys (d : State) (p : String) (h : p ∈ d.keys) :
    ∃ pkg, (p, pkg) ∈ d.packages := by
  simp only [State.keys, GoMap.keys, List.mem_map] at h
  obtain ⟨⟨k, v⟩, hkv, rfl⟩ := h
  exact ⟨v, hkv⟩

theorem mem_keys_of_mem_packages (d : State) (p : String) (pkg : Package)
    (h : (p, pkg) ∈ d.packages) : p ∈ d.keys :=
  List.mem_map.mpr ⟨(p, pkg), h, rfl⟩

/-- The fetch log of a finished seed loop has no duplicate, whatever the outcome. -/
theorem fetched_nodup {ε : Type} {r : Resolver ε} {paths : GoMap Bool} {T : String → Prop}
    {d0 : State} {res : Option ε × State} (h : Post r paths T d0 res) :
    res.2.fetched.Nodup := by
  obtain ⟨out, d⟩ := res
  cases out with
  | none => rw [h.2.1]; exact h.1.nodup
  | some e =>
    obtain ⟨hok, p, _, _, hlog, hnew⟩ := h
    show d.fetched.Nodup
    rw [hlog]
    exact List.Nodup.append hok.nodup (List.nodup_singleton _) (by
      intro a ha hb
      rw [List.mem_singleton] at hb
      exact hnew (hb ▸ ha))

/-- Every fully fetched path is in the closure, whatever the outcome. -/
theorem fetched_closure {ε : Type} {r : Resolver ε} {paths : GoMap Bool} {T : String → Prop}
    {d0 : State} {res : Option ε × State} (h : Post r paths T d0 res) (p : String)
    (hp : p ∈ res.2.fetched) : Closure r paths p := by
  obtain ⟨out, d⟩ := res
  cases out with
  | none =>
    have hp1 : p ∈ d.fetched := hp
    rw [h.2.1] at hp1
    exact h.1.reach p hp1
  | some e =>
    obtain ⟨hok, q, hq, _, hlog, _⟩ := h
    have hp1 : p ∈ d.fetched := hp
    rw [hlog, List.mem_append, List.mem_singleton] at hp1
    rcases hp1 with h1 | h1
    · exact hok.reach p h1
    · rw [h1]; exact hq

theorem post_stateOK {ε : Type} {r : Resolver ε} {paths : GoMap Bool} {T : String → Prop}
    {d0 : State} {res : Option ε × State} (h : Post r paths T d0 res) :
    StateOK r paths res.2 := by
  obtain ⟨out, d⟩ := res
  cases out with
  | none => exact h.1
  | some e => exact h.1

/-- Claim C3: in one run the full-mode fetch is performed at most once for
every import path, and exactly once for every path recorded in the result,
however many import edges lead to it; on the diamond the path at the bottom is
fetched exactly once and has exactly one record in the result. -/
theorem fetch_at_most_once {ε : Type} (r : Resolver ε) (paths : GoMap Bool)
    (L : List String) (hfin : ∀ p, Closure r paths p → p ∈ L) (fuel : Nat)
    (hfuel : L.length < fuel) :
    (∃ out d, traverse r fuel paths = some (out, d) ∧ (∀ p, d.fetched.count p ≤ 1) ∧
      (out = none →
        getTransitiveImports r fuel paths = some (GoMap.values d.packages, none) ∧
        ∀ p, p ∈ d.keys → d.fetched.count p = 1 ∧ d.keys.count p = 1)) ∧
    (∀ n, 4 ≤ n → ∃ d, traverse (tableResolver diamondTable) n [("x/a", true)] = some (none, d) ∧
      getTransitiveImports (tableResolver diamondTable) n [("x/a", true)]
        = some (GoMap.values d.packages, none) ∧
      d.fetched.count "x/d" = 1 ∧ d.keys.count "x/d" = 1 ∧
      (GoMap.values d.packages).count (mkPkg "x/d" [] [] []) = 1) := by
  constructor
  · obtain ⟨res, hres⟩ := traverse_total r paths L hfin fuel hfuel
    have hp := traverse_post r paths fuel res hres
    have hnd := fetched_nodup hp
    obtain ⟨out, d⟩ := res
    refine ⟨out, d, hres, fun p => List.nodup_iff_count_le_one.mp hnd p, ?_⟩
    intro hout
    subst hout
    refine ⟨getTransitiveImports_of_traverse r paths fuel d hres, fun p hpk => ?_⟩
    have hlog : d.fetched = d.keys := hp.2.1
    rw [hlog]
    exact ⟨List.count_eq_one_of_mem hp.1.nodup hpk, List.count_eq_one_of_mem hp.1.nodup hpk⟩
  · intro n hn
    obtain ⟨k, rfl⟩ := Nat.exists_eq_add_of_le hn
    have h4 : traverse (tableResolver diamondTable) 4 [("x/a", true)] = some (none,
        State.mk [("x/a", mkPkg "x/a" ["x/b", "x/c"] [] []), ("x/b", mkPkg "x/b" ["x/d"] [] []),
          ("x/d", mkPkg "x/d" [] [] []), ("x/c", mkPkg "x/c" ["x/d"] [] [])]
          ["x/a", "x/b", "x/d", "x/c"]) := by decide
    have hk := traverse_mono _ _ 4 k _ h4
    exact ⟨_, hk, getTransitiveImports_of_traverse _ _ _ _ hk, by decide, by decide, by decide⟩

/-- The diamond has finitely many reachable paths; each is fetched once. -/
theorem fetch_at_most_once_witness :
    (∃ out d, traverse (tableResolver diamondTable) 5 [("x/a", true)] = some (out, d) ∧
      (∀ p, d.fetched.count p ≤ 1) ∧
      (out = none →
        getTransitiveImports (tableResolver diamondTable) 5 [("x/a", true)]
          = some (GoMap.values d.packages, none) ∧
        ∀ p, p ∈ d.keys → d.fetched.count p = 1 ∧ d.keys.count p = 1)) ∧
    (∀ n, 4 ≤ n → ∃ d, traverse (tableResolver diamondTable) n [("x/a", true)] = some (none, d) ∧
      getTransitiveImports (tableResolver diamondTable) n [("x/a", true)]
        = some (GoMap.values d.packages, none) ∧
      d.fetched.count "x/d" = 1 ∧ d.keys.count "x/d" = 1 ∧
      (GoMap.values d.packages).count (mkPkg "x/d" [] [] []) = 1) :=
  fetch_at_most_once (tableResolver diamondTable) [("x/a", true)] (tableNames diamondTable)
    (tableResolver_closure diamondTable _ _ (by decide) (by decide)) 5 (by decide)

theorem noStd_record {ε : Type} (r : Resolver ε) (path : String) (d : State) (pkg : Package)
    (hP : NoStd r d) (hstd : isStd r path = false) :
    NoStd r (State.mk (GoMap.set d.packages path pkg) (d.fetched ++ [path])) := by
  have hne : ∀ p, isStd r p = true → p ≠ path := by
    intro p hp e
    rw [e, hstd] at hp
    cases hp
  intro p hp
  constructor
  · simp only [State.keys, mem_keys_set, not_or]
    exact ⟨(hP p hp).1, hne p hp⟩
  · simp only [List.mem_append, List.mem_singleton, not_or]
    exact ⟨(hP p hp).2, hne p hp⟩

theorem noStd_init {ε : Type} (r : Resolver ε) : NoStd r State.init :=
  fun _ _ => ⟨by simp [State.init, State.keys, GoMap.keys], by simp [State.init]⟩

/-- Claim C4: no standard-library path, the pseudo-path `C` included, is ever
a key of `d.packages` or fully fetched: this holds in the final state of every
run, is kept by every call of `analyze` from any state and by the step that
records a fetched package, and `analyze` on a standard-library path returns at
once without touching the state; a package
that is not a seed and is imported by standard-library packages only is not
recorded. -/
theorem std_never_recorded {ε : Type} (r : Resolver ε) (paths : GoMap Bool)
    (L : List String) (hfin : ∀ p, Closure r paths p → p ∈ L) (fuel : Nat)
    (hfuel : L.length < fuel) :
    (∃ out d, traverse r fuel paths = some (out, d) ∧ NoStd r d ∧ "C" ∉ d.keys ∧
      (out = none → getTransitiveImports r fuel paths = some (GoMap.values d.packages, none)) ∧
      (∀ x, x ∉ GoMap.keys paths →
        (∀ p pkg, r.importFull p = .ok pkg → x ∈ allImports pkg → isStd r p = true) →
        x ∉ d.fetched ∧ x ∉ d.keys ∧ ∀ pkg, (x, pkg) ∉ d.packages)) ∧
    (∀ n path d0 res, NoStd r d0 → analyze r paths n path d0 = some res → NoStd r res.2) ∧
    (∀ path d0 pkg, NoStd r d0 → isStd r path = false →
      NoStd r (State.mk (GoMap.set d0.packages path pkg) (d0.fetched ++ [path]))) ∧
    (∀ n path d0, isStd r path = true → analyze r paths (n + 1) path d0 = some (none, d0)) := by
  refine ⟨?_, analyze_noStd r paths, noStd_record r, ?_⟩
  · obtain ⟨res, hres⟩ := traverse_total r paths L hfin fuel hfuel
    have hp := traverse_post r paths fuel res hres
    have hns : NoStd r res.2 :=
      forDeps_inv (NoStd r) (fun dep d res1 hd h => analyze_noStd r paths fuel dep d res1 hd h)
        _ _ _ (noStd_init r) hres
    have hcl := fetched_closure hp
    have hok := post_stateOK hp
    obtain ⟨out, d⟩ := res
    refine ⟨out, d, hres, hns, (hns "C" (isStd_C r)).1, ?_, ?_⟩
    · intro hout
      subst hout
      exact getTransitiveImports_of_traverse r paths fuel d hres
    · intro x hx himp
      have hnot : ¬ Closure r paths x := by
        intro hc
        cases hc with
        | seed _ hseed _ => exact hx hseed
        | dep p _ pkg set hp1 hfull hs hq _ =>
          have hstd := himp p pkg hfull (by
            rcases (mem_analyzeSets paths p x pkg).mp ⟨set, hs, hq⟩ with h1 | ⟨_, h1 | h1⟩
            · simp [allImports, h1]
            · simp [allImports, h1]
            · simp [allImports, h1])
          rw [hp1.nonstd] at hstd
          cases hstd
      have hkey : x ∉ d.keys := fun hk => hnot (hok.reach x hk)
      exact ⟨fun hf => hnot (hcl x hf), hkey,
        fun pkg hm => hkey (mem_keys_of_mem_packages d x pkg hm)⟩
  · intro n path d0 hstd
    simp only [analyze, hstd, if_true]

/-- A project importing `net/http` and `C`: neither is recorded, nor is the
package that only `net/http` imports. -/
theorem std_never_recorded_witness :
    (∃ out d, traverse (tableResolver stdTable) 5 [("proj", true)] = some (out, d) ∧
      NoStd (tableResolver stdTable) d ∧ "C" ∉ d.keys ∧
      (out = none → getTransitiveImports (tableResolver stdTable) 5 [("proj", true)]
        = some (GoMap.values d.packages, none)) ∧
      (∀ x, x ∉ GoMap.keys [("proj", true)] →
        (∀ p pkg, (tableResolver stdTable).importFull p = .ok pkg → x ∈ allImports pkg →
          isStd (tableResolver stdTable) p = true) →
        x ∉ d.fetched ∧ x ∉ d.keys ∧ ∀ pkg, (x, pkg) ∉ d.packages)) ∧
    (∀ n path d0 res, NoStd (tableResolver stdTable) d0 →
      analyze (tableResolver stdTable) [("proj", true)] n path d0 = some res →
      NoStd (tableResolver stdTable) res.2) ∧
    (∀ path d0 pkg, NoStd (tableResolver stdTable) d0 →
      isStd (tableResolver stdTable) path = false →
      NoStd (tableResolver stdTable)
        (State.mk (GoMap.set d0.packages path pkg) (d0.fetched ++ [path]))) ∧
    (∀ n path d0, isStd (tableResolver stdTable) path = true →
      analyze (tableResolver stdTable) [("proj", true)] (n + 1) path d0 = some (none, d0)) :=
  std_never_recorded (tableResolver stdTable) [("proj", true)]
    ["proj", "net/http", "C", "golang.org/x/net"]
    (tableResolver_closure stdTable _ _ (by decide) (by decide)) 5 (by decide)

/-! ## Test imports -/

theorem forSets_singleton {ε : Type} (f : String → State → Option (Option ε × State))
    (l : List String) (d : State) : forSets f [l] d = forDeps f l d := by
  simp only [forSets]
  cases forDeps f l d with
  | none => rfl
  | some res =>
    obtain ⟨out, d1⟩ := res
    cases out <;> rfl

/-- The body of `analyze` on a path that is neither standard-library nor
recorded, and whose fetch succeeds. -/
theorem analyze_fetch {ε : Type} (r : Resolver ε) (paths : GoMap Bool) (fuel : Nat)
    (p : String) (d : State) (pkg : Package) (hstd : isStd r p = false) (hnew : p ∉ d.keys)
    (hfull : r.importFull p = .ok pkg) :
    analyze r paths (fuel + 1) p d =
      forSets (fun dep d1 => analyze r paths fuel dep d1) (analyzeSets paths p pkg)
        (State.mk (GoMap.set d.packages p pkg) (d.fetched ++ [p])) := by
  have hvis : (GoMap.get d.packages p).isSome = false := by
    cases h : (GoMap.get d.packages p).isSome with
    | false => rfl
    | true => exact absurd ((GoMap.get_isSome_iff _ _).mp h) hnew
  simp only [analyze, hstd, hvis, Bool.false_eq_true, if_false, hfull]

theorem testEnabled_false_of_not_mem (paths : GoMap Bool) (p : String)
    (h : p ∉ GoMap.keys paths) : testEnabled paths p = false := by
  cases ht : testEnabled paths p with
  | false => rfl
  | true => exact absurd (testEnabled_mem paths p ht) h

theorem tableResolver_importReach (table : List Package) (L : List String) (a : String)
    (ha : a ∈ L) (hclosed : ∀ pkg ∈ table, pkg.ImportPath ∈ L → ∀ q ∈ pkg.Imports, q ∈ L)
    (x : String) (h : ImportReach (tableResolver table) a x) : x ∈ L := by
  induction h with
  | refl => exact ha
  | step p q pkg _ hfull hq ih =>
    obtain ⟨hmem, hname⟩ := findPkg_mem table p pkg (tableResolver_full table p pkg hfull)
    exact hclosed pkg hmem (hname ▸ ih) q hq

/-- Claim C5 fails on the code as stated: the seed `S` imports `T` and has the
test-only import `U`, `T` has the test-only import `V`, all four are resolvable
and not standard-library, and `V` is not reachable from `S`, `T` or `U` through
non-test imports.  When `S` has a second test import `W` that imports `V`, the
record of `V` is in the result; when `S` has a second import that does not
resolve, the run returns the error and a `nil` list, without the records of
`T` and `U`. -/
theorem test_scope_counterexample :
    (isStd (tableResolver widerScopeTable) "S" = false ∧
      isStd (tableResolver widerScopeTable) "T" = false ∧
      isStd (tableResolver widerScopeTable) "U" = false ∧
      isStd (tableResolver widerScopeTable) "V" = false ∧
      (tableResolver widerScopeTable).importFull "S" = .ok (mkPkg "S" ["T"] ["U", "W"] []) ∧
      (tableResolver widerScopeTable).importFull "T" = .ok (mkPkg "T" [] ["V"] []) ∧
      (tableResolver widerScopeTable).importFull "U" = .ok (mkPkg "U" [] [] []) ∧
      (tableResolver widerScopeTable).importFull "V" = .ok (mkPkg "V" [] [] []) ∧
      ¬ ImportReach (tableResolver widerScopeTable) "S" "V" ∧
      ¬ ImportReach (tableResolver widerScopeTable) "T" "V" ∧
      ¬ ImportReach (tableResolver widerScopeTable) "U" "V" ∧
      getTransitiveImports (tableResolver widerScopeTable) 3 [("S", true)]
        = some ([mkPkg "S" ["T"] ["U", "W"] [], mkPkg "T" [] ["V"] [], mkPkg "U" [] [] [],
            mkPkg "W" ["V"] [] [], mkPkg "V" [] [] []], none)) ∧
    (isStd (tableResolver brokenScopeTable) "S" = false ∧
      isStd (tableResolver brokenScopeTable) "T" = false ∧
      isStd (tableResolver brokenScopeTable) "U" = false ∧
      isStd (tableResolver brokenScopeTable) "V" = false ∧
      (tableResolver brokenScopeTable).importFull "S"
        = .ok (mkPkg "S" ["T", "missing/x"] ["U"] []) ∧
      (tableResolver brokenScopeTable).importFull "T" = .ok (mkPkg "T" [] ["V"] []) ∧
      (tableResolver brokenScopeTable).importFull "U" = .ok (mkPkg "U" [] [] []) ∧
      (tableResolver brokenScopeTable).importFull "V" = .ok (mkPkg "V" [] [] []) ∧
      ¬ ImportReach (tableResolver brokenScopeTable) "S" "V" ∧
      ¬ ImportReach (tableResolver brokenScopeTable) "T" "V" ∧
      ¬ ImportReach (tableResolver brokenScopeTable) "U" "V" ∧
      getTransitiveImports (tableResolver brokenScopeTable) 3 [("S", true)]
        = some ([], some "cannot find package missing/x")) :=
  ⟨⟨by decide, by decide, by decide, by decide, rfl, rfl, rfl, rfl,
      fun h => absurd (tableResolver_importReach widerScopeTable ["S", "T"] "S" (by decide)
        (by decide) "V" h) (by decide),
      fun h => absurd (tableResolver_importReach widerScopeTable ["T"] "T" (by decide)
        (by decide) "V" h) (by decide),
      fun h => absurd (tableResolver_importReach widerScopeTable ["U"] "U" (by decide)
        (by decide) "V" h) (by decide),
      by decide⟩,
    ⟨by decide, by decide, by decide, by decide, rfl, rfl, rfl, rfl,
      fun h => absurd (tableResolver_importReach brokenScopeTable ["S", "T", "missing/x"] "S"
        (by decide) (by decide) "V" h) (by decide),
      fun h => absurd (tableResolver_importReach brokenScopeTable ["T"] "T" (by decide)
        (by decide) "V" h) (by decide),
      fun h => absurd (tableResolver_importReach brokenScopeTable ["U"] "U" (by decide)
        (by decide) "V" h) (by decide),
      by decide⟩⟩

/-- Claim C5, amended: a path that is not a seed never has its `TestImports` or
`XTestImports` traversed: the call of `analyze` on it is the loop over its
`Imports` alone.  Hence, for the seed set `{S}` where `S` imports `T` and has
the test-only import `U`, `T` has the test-only import `V`, the paths the
traversal reaches are finitely many and all resolve, and `V` is not reachable
through non-test imports from `S`, `T`, `U` or any other test import of `S`
that is not standard-library, the result holds the records of `T` and `U` and
no record for `V`. -/
theorem test_imports_only_for_seeds {ε : Type} (r : Resolver ε) (S T U V : String)
    (ps pt : Package) (L : List String)
    (hS : isStd r S = false) (hT : isStd r T = false) (hU : isStd r U = false)
    (hV : isStd r V = false)
    (hps : r.importFull S = .ok ps) (hpt : r.importFull T = .ok pt)
    (hST : T ∈ ps.Imports) (hSU : U ∈ ps.TestImports ∨ U ∈ ps.XTestImports)
    (hTV : V ∈ pt.TestImports ∨ V ∈ pt.XTestImports)
    (hnot : ¬ ImportReach r S V ∧ ¬ ImportReach r T V ∧ ¬ ImportReach r U V)
    (hnotTests : ∀ q, q ∈ ps.TestImports ∨ q ∈ ps.XTestImports → isStd r q = false →
      ¬ ImportReach r q V)
    (hfin : ∀ p, Closure r [(S, true)] p → p ∈ L)
    (hfetch : ∀ p, Closure r [(S, true)] p → ∃ pkg, r.importFull p = .ok pkg) :
    (∀ (paths : GoMap Bool) (fuel : Nat) (p : String) (d : State) (pkg : Package),
      p ∉ GoMap.keys paths → isStd r p = false → p ∉ d.keys → r.importFull p = .ok pkg →
      analyze r paths (fuel + 1) p d =
        forDeps (fun dep d1 => analyze r paths fuel dep d1) pkg.Imports
          (State.mk (GoMap.set d.packages p pkg) (d.fetched ++ [p]))) ∧
    (∀ fuel, L.length < fuel → ∃ d, traverse r fuel [(S, true)] = some (none, d) ∧
      getTransitiveImports r fuel [(S, true)] = some (GoMap.values d.packages, none) ∧
      (T, pt) ∈ d.packages ∧ (∃ pu, (U, pu) ∈ d.packages ∧ r.importFull U = .ok pu) ∧
      V ∉ d.keys ∧ ∀ pv, (V, pv) ∉ d.packages) ∧
    (∀ fuel, 2 ≤ fuel → getTransitiveImports (tableResolver scopeTable) fuel [("S", true)]
      = some ([mkPkg "S" ["T"] ["U"] [], mkPkg "T" [] ["V"] [], mkPkg "U" [] [] []], none)) := by
  have _ := hV
  have _ := hTV
  refine ⟨?_, ?_, ?_⟩
  · intro paths fuel p d pkg hp hstd hnew hfull
    rw [analyze_fetch r paths fuel p d pkg hstd hnew hfull]
    simp only [analyzeSets, testEnabled_false_of_not_mem paths p hp, Bool.false_eq_true,
      if_false, List.append_nil]
    exact forSets_singleton _ _ _
  · intro fuel hfuel
    obtain ⟨d, hd, hp⟩ := traverse_success r [(S, true)] L hfin hfetch fuel hfuel
    have hkeys := keys_iff_closure hp
    have hcS : Closure r [(S, true)] S := Closure.seed S (by simp [GoMap.keys]) hS
    have hte : testEnabled [(S, true)] S = true := by simp [testEnabled, GoMap.get]
    have hcT : Closure r [(S, true)] T :=
      Closure.dep S T ps ps.Imports hcS hps (by simp [analyzeSets]) hST hT
    have hcU : Closure r [(S, true)] U := by
      obtain ⟨set, hs, hq⟩ := (mem_analyzeSets [(S, true)] S U ps).mpr (Or.inr ⟨hte, hSU⟩)
      exact Closure.dep S U ps set hcS hps hs hq hU
    have hreach : ∀ p, Closure r [(S, true)] p → ImportReach r S p ∨
        ∃ q, (q ∈ ps.TestImports ∨ q ∈ ps.XTestImports) ∧ isStd r q = false ∧
          ImportReach r q p := by
      intro p hc
      induction hc with
      | seed p hseed _ =>
        have : p = S := by simpa [GoMap.keys] using hseed
        exact Or.inl (this ▸ ImportReach.refl)
      | dep p q pkg set hc1 hfull hs hq hstd ih =>
        rcases (mem_analyzeSets [(S, true)] p q pkg).mp ⟨set, hs, hq⟩ with h1 | ⟨h1, h2⟩
        · rcases ih with h | ⟨q0, hq0, hstd0, h⟩
          · exact Or.inl (ImportReach.step p q pkg h hfull h1)
          · exact Or.inr ⟨q0, hq0, hstd0, ImportReach.step p q pkg h hfull h1⟩
        · have hpS : p = S := by
            have := testEnabled_mem _ _ h1
            simpa [GoMap.keys] using this
          subst hpS
          rw [hps] at hfull
          cases hfull
          exact Or.inr ⟨q, h2, hstd, ImportReach.refl⟩
    have hVk : V ∉ d.keys := by
      intro hk
      rcases hreach V ((hkeys V).mp hk) with h | ⟨q0, hq0, hstd0, h⟩
      · exact hnot.1 h
      · exact hnotTests q0 hq0 hstd0 h
    refine ⟨d, hd, getTransitiveImports_of_traverse r _ fuel d hd, ?_, ?_, hVk,
      fun pv hm => hVk (mem_keys_of_mem_packages d V pv hm)⟩
    · obtain ⟨pkg, hpkg⟩ := mem_packages_of_mem_keys d T ((hkeys T).mpr hcT)
      have := hp.1.records T pkg hpkg
      rw [hpt] at this
      cases this
      exact hpkg
    · obtain ⟨pkg, hpkg⟩ := mem_packages_of_mem_keys d U ((hkeys U).mpr hcU)
      exact ⟨pkg, hpkg, hp.1.records U pkg hpkg⟩
  · intro fuel hfuel
    obtain ⟨k, rfl⟩ := Nat.exists_eq_add_of_le hfuel
    exact getTransitiveImports_mono _ _ 2 k _ (by decide)

/-- The four-package scenario satisfies the hypotheses of the amended claim C5. -/
theorem test_imports_only_for_seeds_witness :
    (∀ (paths : GoMap Bool) (fuel : Nat) (p : String) (d : State) (pkg : Package),
      p ∉ GoMap.keys paths → isStd (tableResolver scopeTable) p = false → p ∉ d.keys →
      (tableResolver scopeTable).importFull p = .ok pkg →
      analyze (tableResolver scopeTable) paths (fuel + 1) p d =
        forDeps (fun dep d1 => analyze (tableResolver scopeTable) paths fuel dep d1) pkg.Imports
          (State.mk (GoMap.set d.packages p pkg) (d.fetched ++ [p]))) ∧
    (∀ fuel, (tableNames scopeTable).length < fuel →
      ∃ d, traverse (tableResolver scopeTable) fuel [("S", true)] = some (none, d) ∧
      getTransitiveImports (tableResolver scopeTable) fuel [("S", true)]
        = some (GoMap.values d.packages, none) ∧
      ("T", mkPkg "T" [] ["V"] []) ∈ d.packages ∧
      (∃ pu, ("U", pu) ∈ d.packages ∧ (tableResolver scopeTable).importFull "U" = .ok pu) ∧
      "V" ∉ d.keys ∧ ∀ pv, ("V", pv) ∉ d.packages) ∧
    (∀ fuel, 2 ≤ fuel → getTransitiveImports (tableResolver scopeTable) fuel [("S", true)]
      = some ([mkPkg "S" ["T"] ["U"] [], mkPkg "T" [] ["V"] [], mkPkg "U" [] [] []], none)) :=
  test_imports_only_for_seeds (tableResolver scopeTable) "S" "T" "U" "V"
    (mkPkg "S" ["T"] ["U"] []) (mkPkg "T" [] ["V"] []) (tableNames scopeTable)
    (by decide) (by decide) (by decide) (by decide) rfl rfl (by decide)
    (by decide) (by decide)
    ⟨fun h => absurd (tableResolver_importReach scopeTable ["S", "T"] "S" (by decide)
        (by decide) "V" h) (by decide),
      fun h => absurd (tableResolver_importReach scopeTable ["T"] "T" (by decide)
        (by decide) "V" h) (by decide),
      fun h => absurd (tableResolver_importReach scopeTable ["U"] "U" (by decide)
        (by decide) "V" h) (by decide)⟩
    (fun q hq _ h => by
      have hqU : q = "U" := by simpa [mkPkg] using hq
      subst hqU
      exact absurd (tableResolver_importReach scopeTable ["U"] "U" (by decide)
        (by decide) "V" h) (by decide))
    (tableResolver_closure scopeTable _ _ (by decide) (by decide))
    (fun p hp => tableResolver_fetch scopeTable p
      (tableResolver_closure scopeTable _ _ (by decide) (by decide) p hp))

/-- Claim C6 fails on the code: with seeds `A` and `B`, where `A` imports `B`
and `B` has the test-only import `U`, not reachable through non-test imports,
the first iteration of the seed loop (on `A`) already visits `B` as a
direct import of `A`, traverses the test imports of `B` and records `U`,
which is in the result. -/
theorem seed_visited_as_import_counterexample :
    analyze (tableResolver seedDepTable) [("A", true), ("B", true)] 3 "A" State.init
      = some (none, State.mk
          [("A", mkPkg "A" ["B"] [] []), ("B", mkPkg "B" [] ["U"] []), ("U", mkPkg "U" [] [] [])]
          ["A", "B", "U"]) ∧
    getTransitiveImports (tableResolver seedDepTable) 3 [("A", true), ("B", true)]
      = some ([mkPkg "A" ["B"] [] [], mkPkg "B" [] ["U"] [], mkPkg "U" [] [] []], none) ∧
    ¬ ImportReach (tableResolver seedDepTable) "A" "U" ∧
    ¬ ImportReach (tableResolver seedDepTable) "B" "U" :=
  ⟨by decide, by decide,
    fun h => absurd (tableResolver_importReach seedDepTable ["A", "B"] "A" (by decide)
      (by decide) "U" h) (by decide),
    fun h => absurd (tableResolver_importReach seedDepTable ["B"] "B" (by decide)
      (by decide) "U" h) (by decide)⟩

/-- Claim C6, amended: whether the test imports of a path are traversed depends
only on the path being a seed, not on the caller of `analyze`.  A seed `p`
first visited in any state has all three import lists traversed, and in every
iteration order of the seeds the result holds the record of each
non-standard-library test import `q` of a non-standard-library seed; a path
that is not a seed has its `Imports` traversed and nothing else; with
seeds `A` and `B`, `A` importing `B` and `B` having the test-only import `U`,
the record of `U` is in the result in both orders. -/
theorem seed_tests_traversed_however_reached {ε : Type} (r : Resolver ε) (paths : GoMap Bool)
    (L : List String) (p q : String) (pkg : Package)
    (hall : ∀ kv ∈ paths, kv.2 = true)
    (hfin : ∀ x, Closure r paths x → x ∈ L)
    (hfetch : ∀ x, Closure r paths x → ∃ px, r.importFull x = .ok px)
    (hp : p ∈ GoMap.keys paths) (hstdp : isStd r p = false) (hfull : r.importFull p = .ok pkg)
    (hq : q ∈ pkg.TestImports ∨ q ∈ pkg.XTestImports) (hstdq : isStd r q = false) :
    (∀ (fuel : Nat) (d : State), p ∉ d.keys →
      analyze r paths (fuel + 1) p d =
        forSets (fun dep d1 => analyze r paths fuel dep d1)
          [pkg.Imports, pkg.TestImports, pkg.XTestImports]
          (State.mk (GoMap.set d.packages p pkg) (d.fetched ++ [p]))) ∧
    (∀ fuel, L.length < fuel → ∃ d pq, traverse r fuel paths = some (none, d) ∧
      getTransitiveImports r fuel paths = some (GoMap.values d.packages, none) ∧
      (q, pq) ∈ d.packages ∧ r.importFull q = .ok pq) ∧
    (∀ (fuel : Nat) (p2 : String) (d : State) (pkg2 : Package), p2 ∉ GoMap.keys paths →
      isStd r p2 = false → p2 ∉ d.keys → r.importFull p2 = .ok pkg2 →
      analyze r paths (fuel + 1) p2 d =
        forSets (fun dep d1 => analyze r paths fuel dep d1) [pkg2.Imports]
          (State.mk (GoMap.set d.packages p2 pkg2) (d.fetched ++ [p2]))) ∧
    (∀ fuel, 3 ≤ fuel →
      getTransitiveImports (tableResolver seedDepTable) fuel [("A", true), ("B", true)]
        = some ([mkPkg "A" ["B"] [] [], mkPkg "B" [] ["U"] [], mkPkg "U" [] [] []], none) ∧
      getTransitiveImports (tableResolver seedDepTable) fuel [("B", true), ("A", true)]
        = some ([mkPkg "B" [] ["U"] [], mkPkg "U" [] [] [], mkPkg "A" ["B"] [] []], none)) := by
  have hte : testEnabled paths p = true := testEnabled_of_mem paths p hall hp
  refine ⟨?_, ?_, ?_, ?_⟩
  · intro fuel d hnew
    rw [analyze_fetch r paths fuel p d pkg hstdp hnew hfull]
    simp only [analyzeSets, hte, if_true, List.singleton_append]
  · intro fuel hfuel
    obtain ⟨d, hd, hpost⟩ := traverse_success r paths L hfin hfetch fuel hfuel
    have hcq : Closure r paths q := by
      obtain ⟨set, hs, hqs⟩ := (mem_analyzeSets paths p q pkg).mpr (Or.inr ⟨hte, hq⟩)
      exact Closure.dep p q pkg set (Closure.seed p hp hstdp) hfull hs hqs hstdq
    obtain ⟨pq, hpq⟩ := mem_packages_of_mem_keys d q ((keys_iff_closure hpost q).mpr hcq)
    exact ⟨d, pq, hd, getTransitiveImports_of_traverse r paths fuel d hd, hpq,
      hpost.1.records q pq hpq⟩
  · intro fuel p2 d pkg2 hp2 hstd2 hnew2 hfull2
    rw [analyze_fetch r paths fuel p2 d pkg2 hstd2 hnew2 hfull2]
    simp only [analyzeSets, testEnabled_false_of_not_mem paths p2 hp2, Bool.false_eq_true,
      if_false, List.append_nil]
  · intro fuel hfuel
    obtain ⟨k, rfl⟩ := Nat.exists_eq_add_of_le hfuel
    exact ⟨getTransitiveImports_mono _ _ 3 k _ (by decide),
      getTransitiveImports_mono _ _ 3 k _ (by decide)⟩

/-- The two-seed scenario satisfies the hypotheses of the amended claim C6. -/
theorem seed_tests_traversed_however_reached_witness :
    (∀ (fuel : Nat) (d : State), "B" ∉ d.keys →
      analyze (tableResolver seedDepTable) [("A", true), ("B", true)] (fuel + 1) "B" d =
        forSets (fun dep d1 =>
            analyze (tableResolver seedDepTable) [("A", true), ("B", true)] fuel dep d1)
          [(mkPkg "B" [] ["U"] []).Imports, (mkPkg "B" [] ["U"] []).TestImports,
            (mkPkg "B" [] ["U"] []).XTestImports]
          (State.mk (GoMap.set d.packages "B" (mkPkg "B" [] ["U"] [])) (d.fetched ++ ["B"]))) ∧
    (∀ fuel, (tableNames seedDepTable).length < fuel →
      ∃ d pq, traverse (tableResolver seedDepTable) fuel [("A", true), ("B", true)]
          = some (none, d) ∧
      getTransitiveImports (tableResolver seedDepTable) fuel [("A", true), ("B", true)]
        = some (GoMap.values d.packages, none) ∧
      ("U", pq) ∈ d.packages ∧ (tableResolver seedDepTable).importFull "U" = .ok pq) ∧
    (∀ (fuel : Nat) (p2 : String) (d : State) (pkg2 : Package),
      p2 ∉ GoMap.keys [("A", true), ("B", true)] →
      isStd (tableResolver seedDepTable) p2 = false → p2 ∉ d.keys →
      (tableResolver seedDepTable).importFull p2 = .ok pkg2 →
      analyze (tableResolver seedDepTable) [("A", true), ("B", true)] (fuel + 1) p2 d =
        forSets (fun dep d1 =>
            analyze (tableResolver seedDepTable) [("A", true), ("B", true)] fuel dep d1)
          [pkg2.Imports]
          (State.mk (GoMap.set d.packages p2 pkg2) (d.fetched ++ [p2]))) ∧
    (∀ fuel, 3 ≤ fuel →
      getTransitiveImports (tableResolver seedDepTable) fuel [("A", true), ("B", true)]
        = some ([mkPkg "A" ["B"] [] [], mkPkg "B" [] ["U"] [], mkPkg "U" [] [] []], none) ∧
      getTransitiveImports (tableResolver seedDepTable) fuel [("B", true), ("A", true)]
        = some ([mkPkg "B" [] ["U"] [], mkPkg "U" [] [] [], mkPkg "A" ["B"] [] []], none)) :=
  seed_tests_traversed_however_reached (tableResolver seedDepTable) [("A", true), ("B", true)]
    (tableNames seedDepTable) "B" "U" (mkPkg "B" [] ["U"] []) (by decide)
    (tableResolver_closure seedDepTable _ _ (by decide) (by decide))
    (fun x hx => tableResolver_fetch seedDepTable x
      (tableResolver_closure seedDepTable _ _ (by decide) (by decide) x hx))
    (by decide) (by decide) rfl (by decide) (by decide)

/-- Claim C7: `getTransitiveImports` returns an error exactly when the full
fetch fails for some path of the closure; then the returned list is `nil`, the
error is the one the resolver returned for a path of the closure, and that
failing fetch is the last one of the run, every earlier one having succeeded
(in the project whose second import does not resolve, the third import is
never fetched). -/
theorem error_iff_fetch_fails {ε : Type} (r : Resolver ε) (paths : GoMap Bool)
    (L : List String) (hfin : ∀ p, Closure r paths p → p ∈ L) (fuel : Nat)
    (hfuel : L.length < fuel) :
    (∃ (result : List Package) (err : Option ε) (d : State),
      traverse r fuel paths = some (err, d) ∧
      getTransitiveImports r fuel paths = some (result, err) ∧
      (err ≠ none ↔ ∃ p e, Closure r paths p ∧ r.importFull p = .error e) ∧
      (∀ e, err = some e → result = [] ∧
        ∃ p pre, Closure r paths p ∧ r.importFull p = .error e ∧ d.fetched = pre ++ [p] ∧
          ∀ q ∈ pre, ∃ pkg, r.importFull q = .ok pkg)) ∧
    (∀ n, 2 ≤ n →
      traverse (tableResolver failTable) n [("proj", true)]
        = some (some "cannot find package missing/x",
            State.mk [("proj", mkPkg "proj" ["dep/a", "missing/x", "dep/b"] [] []),
              ("dep/a", mkPkg "dep/a" [] [] [])] ["proj", "dep/a", "missing/x"]) ∧
      getTransitiveImports (tableResolver failTable) n [("proj", true)]
        = some ([], some "cannot find package missing/x")) := by
  refine ⟨?_, fun n hn => ?_⟩
  swap
  · obtain ⟨k, rfl⟩ := Nat.exists_eq_add_of_le hn
    have h2 := traverse_mono (tableResolver failTable) [("proj", true)] 2 k _
      (by decide : traverse (tableResolver failTable) 2 [("proj", true)]
        = some (some "cannot find package missing/x",
            State.mk [("proj", mkPkg "proj" ["dep/a", "missing/x", "dep/b"] [] []),
              ("dep/a", mkPkg "dep/a" [] [] [])] ["proj", "dep/a", "missing/x"]))
    exact ⟨h2, getTransitiveImports_of_error _ _ _ _ _ h2⟩
  obtain ⟨res, hres⟩ := traverse_total r paths L hfin fuel hfuel
  have hp := traverse_post r paths fuel res hres
  obtain ⟨out, d⟩ := res
  cases out with
  | none =>
    refine ⟨_, none, d, hres, getTransitiveImports_of_traverse r paths fuel d hres, ?_, ?_⟩
    · constructor
      · intro h; exact absurd rfl h
      · rintro ⟨p, e, hc, he⟩
        obtain ⟨pkg, hpkg⟩ := mem_packages_of_mem_keys d p ((keys_iff_closure hp p).mpr hc)
        have := hp.1.records p pkg hpkg
        rw [he] at this
        cases this
    · intro e he
      cases he
  | some e =>
    obtain ⟨hok, p, hc, hfail, hlog, _⟩ := hp
    refine ⟨[], some e, d, hres, getTransitiveImports_of_error r paths fuel d e hres, ?_, ?_⟩
    · exact ⟨fun _ => ⟨p, e, hc, hfail⟩, fun _ => by simp⟩
    · intro e2 he2
      cases he2
      refine ⟨rfl, p, d.keys, hc, hfail, hlog, ?_⟩
      intro q hq
      obtain ⟨pkg, hpkg⟩ := mem_packages_of_mem_keys d q hq
      exact ⟨pkg, hok.records q pkg hpkg⟩

/-- A project with an unresolvable import: the run has a result as claim C7
describes it. -/
theorem error_iff_fetch_fails_witness :
    (∃ (result : List Package) (err : Option String) (d : State),
      traverse (tableResolver failTable) 5 [("proj", true)] = some (err, d) ∧
      getTransitiveImports (tableResolver failTable) 5 [("proj", true)] = some (result, err) ∧
      (err ≠ none ↔ ∃ p e, Closure (tableResolver failTable) [("proj", true)] p ∧
        (tableResolver failTable).importFull p = .error e) ∧
      (∀ e, err = some e → result = [] ∧
        ∃ p pre, Closure (tableResolver failTable) [("proj", true)] p ∧
          (tableResolver failTable).importFull p = .error e ∧ d.fetched = pre ++ [p] ∧
          ∀ q ∈ pre, ∃ pkg, (tableResolver failTable).importFull q = .ok pkg)) ∧
    (∀ n, 2 ≤ n →
      traverse (tableResolver failTable) n [("proj", true)]
        = some (some "cannot find package missing/x",
            State.mk [("proj", mkPkg "proj" ["dep/a", "missing/x", "dep/b"] [] []),
              ("dep/a", mkPkg "dep/a" [] [] [])] ["proj", "dep/a", "missing/x"]) ∧
      getTransitiveImports (tableResolver failTable) n [("proj", true)]
        = some ([], some "cannot find package missing/x")) :=
  error_iff_fetch_fails (tableResolver failTable) [("proj", true)]
    ["proj", "dep/a", "missing/x", "dep/b"]
    (tableResolver_closure failTable _ _ (by decide) (by decide)) 5 (by decide)

/-- Claim C8: `isStd path` is true exactly when `path` is `C` or the locate-only
lookup succeeds with `Goroot` set; when that lookup fails for another path,
`isStd` is `false` and `analyze` goes on as for any other path: it returns at
once for a recorded path, and otherwise performs the full fetch, whose outcome
alone decides the error. -/
theorem isStd_fail_open {ε : Type} (r : Resolver ε) (path : String) :
    (isStd r path = true ↔
      path = "C" ∨ ∃ p, r.importFind path = .ok p ∧ p.Goroot = true) ∧
    (∀ e, path ≠ "C" → r.importFind path = .error e →
      isStd r path = false ∧
      ∀ (paths : GoMap Bool) (fuel : Nat) (d : State),
        (path ∈ d.keys → analyze r paths (fuel + 1) path d = some (none, d)) ∧
        (path ∉ d.keys →
          (∀ e2, r.importFull path = .error e2 →
            analyze r paths (fuel + 1) path d
              = some (some e2, State.mk d.packages (d.fetched ++ [path]))) ∧
          (∀ pkg, r.importFull path = .ok pkg →
            analyze r paths (fuel + 1) path d =
              forSets (fun dep d1 => analyze r paths fuel dep d1) (analyzeSets paths path pkg)
                (State.mk (GoMap.set d.packages path pkg) (d.fetched ++ [path]))))) := by
  constructor
  · unfold isStd
    by_cases hC : path = "C"
    · simp [hC]
    · cases hf : r.importFind path with
      | error e => simp [hC]
      | ok p => simp [hC]
  · intro e hC hfind
    have hstd : isStd r path = false := by
      simp only [isStd, hC, if_false, hfind]
    refine ⟨hstd, fun paths fuel d => ⟨?_, ?_⟩⟩
    · intro hk
      have hvis := (GoMap.get_isSome_iff d.packages path).mpr hk
      simp only [analyze, hstd, Bool.false_eq_true, if_false, hvis, if_true]
    · intro hnew
      refine ⟨?_, fun pkg hfull => analyze_fetch r paths fuel path d pkg hstd hnew hfull⟩
      intro e2 hfull
      have hvis : (GoMap.get d.packages path).isSome = false := by
        cases h : (GoMap.get d.packages path).isSome with
        | false => rfl
        | true => exact absurd ((GoMap.get_isSome_iff _ _).mp h) hnew
      simp only [analyze, hstd, hvis, Bool.false_eq_true, if_false, hfull]

/-- With a locate-only lookup that always fails, `analyze` still fetches and
records the package. -/
theorem isStd_fail_open_witness :
    isStd (probeFailResolver projTable) "github.com/x/b" = false ∧
    analyze (probeFailResolver projTable) [] 1 "github.com/x/b" State.init
      = some (none, State.mk [("github.com/x/b", mkPkg "github.com/x/b" [] [] [])]
          ["github.com/x/b"]) := by
  have h := (isStd_fail_open (probeFailResolver projTable) "github.com/x/b").2
    "cannot find package github.com/x/b" (by decide) rfl
  refine ⟨h.1, ?_⟩
  rw [((h.2 [] 0 State.init).2 (by decide)).2 (mkPkg "github.com/x/b" [] [] []) rfl]
  rfl

/-! ## The materializer -/

theorem vendorFiles_dry {σ ε φ : Type} (os : OS σ ε φ) (verbose : Bool)
    (pkgDir targetDir : String) :
    ∀ (files : List String) (w : World σ),
      vendorFiles os ⟨true, verbose⟩ pkgDir targetDir files w =
        (none, { fs := w.fs, log := w.log ++
          (if verbose then cpLines os pkgDir targetDir files else []) }) := by
  intro files
  induction files with
  | nil => intro w; cases verbose <;> simp [vendorFiles, cpLines]
  | cons file rest ih =>
    intro w
    by_cases ht : hasSuffix file "_test.go" = true
    · simp only [vendorFiles, cpLines, ht, if_true]
      exact ih w
    · simp only [vendorFiles, cpLines, ht, if_false, Bool.not_true, Bool.false_eq_true]
      rw [ih]
      cases verbose <;> simp

theorem vendorSets_dry {σ ε φ : Type} (os : OS σ ε φ) (verbose : Bool)
    (pkgDir targetDir : String) :
    ∀ (sets : List (List String)) (w : World σ),
      vendorSets os ⟨true, verbose⟩ pkgDir targetDir sets w =
        (none, { fs := w.fs, log := w.log ++
          (if verbose then cpLinesSets os pkgDir targetDir sets else []) }) := by
  intro sets
  induction sets with
  | nil => intro w; cases verbose <;> simp [vendorSets, cpLinesSets]
  | cons set rest ih =>
    intro w
    simp only [vendorSets, vendorFiles_dry, ih, cpLinesSets]
    cases verbose <;> simp

/-- The lines of a verbose run without dry-run start the lines of the plan, and
are all of them when the run returns no error. -/
theorem vendorFiles_real_log {σ ε φ : Type} (os : OS σ ε φ) (pkgDir targetDir : String) :
    ∀ (files : List String) (w : World σ),
      ∃ t, w.log ++ cpLines os pkgDir targetDir files
          = (vendorFiles os ⟨false, true⟩ pkgDir targetDir files w).2.log ++ t ∧
        ((vendorFiles os ⟨false, true⟩ pkgDir targetDir files w).1 = none → t = []) := by
  intro files
  induction files with
  | nil => intro w; exact ⟨[], by simp [vendorFiles, cpLines], fun _ => rfl⟩
  | cons file rest ih =>
    intro w
    by_cases ht : hasSuffix file "_test.go" = true
    · simp only [vendorFiles, cpLines, ht, if_true]
      exact ih w
    · simp only [vendorFiles, cpLines, ht, if_false, Bool.not_false, if_true,
        Bool.false_eq_true]
      cases hcp : cp os (os.join pkgDir file) (os.join targetDir file) w.fs with
      | mk err fs2 =>
        cases err with
        | some e =>
          exact ⟨cpLines os pkgDir targetDir rest, by simp, fun h => by simp at h⟩
        | none =>
          obtain ⟨t, ht1, ht2⟩ := ih { fs := fs2, log := w.log ++
            [cpLine (os.join pkgDir file) (os.join targetDir file)] }
          refine ⟨t, ?_, ht2⟩
          simpa using ht1

theorem vendorSets_real_log {σ ε φ : Type} (os : OS σ ε φ) (pkgDir targetDir : String) :
    ∀ (sets : List (List String)) (w : World σ),
      ∃ t, w.log ++ cpLinesSets os pkgDir targetDir sets
          = (vendorSets os ⟨false, true⟩ pkgDir targetDir sets w).2.log ++ t ∧
        ((vendorSets os ⟨false, true⟩ pkgDir targetDir sets w).1 = none → t = []) := by
  intro sets
  induction sets with
  | nil => intro w; exact ⟨[], by simp [vendorSets, cpLinesSets], fun _ => rfl⟩
  | cons set rest ih =>
    intro w
    obtain ⟨t1, h1, h1n⟩ := vendorFiles_real_log os pkgDir targetDir set w
    simp only [vendorSets, cpLinesSets]
    cases hv : vendorFiles os ⟨false, true⟩ pkgDir targetDir set w with
    | mk err w1 =>
      rw [hv] at h1 h1n
      cases err with
      | some e =>
        refine ⟨t1 ++ cpLinesSets os pkgDir targetDir rest, ?_, fun h => by simp at h⟩
        simp only [← List.append_assoc, h1]
      | none =>
        have ht1 : t1 = [] := h1n rfl
        subst ht1
        obtain ⟨t, h2, h2n⟩ := ih w1
        refine ⟨t, ?_, h2n⟩
        simp only [List.append_nil] at h1
        simp only [← List.append_assoc, h1]
        exact h2

theorem vendor_dry_fs {σ ε φ : Type} (os : OS σ ε φ) (verbose : Bool) (dir : String)
    (pkg : Package) (w : World σ) :
    (vendor os ⟨true, verbose⟩ dir pkg w).2.fs
      = (os.mkdirAll (os.join dir pkg.ImportPath) 493 w.fs).2 := by
  cases hm : os.mkdirAll (os.join dir pkg.ImportPath) 493 w.fs with
  | mk err fs1 =>
    cases err with
    | some e => simp only [vendor, hm]
    | none =>
      cases hg : os.glob (pkg.Dir ++ "/*.s") fs1 with
      | error e => simp only [vendor, hm, hg]
      | ok found => simp [vendor, hm, hg, vendorSets_dry]

theorem vendor_log_agrees {σ ε φ : Type} (os : OS σ ε φ) (dir : String) (pkg : Package)
    (w : World σ) :
    ∃ t, (vendor os ⟨true, true⟩ dir pkg w).2.log
        = (vendor os ⟨false, true⟩ dir pkg w).2.log ++ t ∧
      ((vendor os ⟨false, true⟩ dir pkg w).1 = none → t = []) := by
  cases hm : os.mkdirAll (os.join dir pkg.ImportPath) 493 w.fs with
  | mk err fs1 =>
    cases err with
    | some e => exact ⟨[], by simp [vendor, hm], fun _ => rfl⟩
    | none =>
      cases hg : os.glob (pkg.Dir ++ "/*.s") fs1 with
      | error e => exact ⟨[], by simp [vendor, hm, hg], fun _ => rfl⟩
      | ok found =>
        obtain ⟨t, h1, h2⟩ := vendorSets_real_log os pkg.Dir (os.join dir pkg.ImportPath)
          (vendorFileSets pkg (found.map os.base)) { fs := fs1, log := w.log }
        cases hv : vendorSets os ⟨false, true⟩ pkg.Dir (os.join dir pkg.ImportPath)
            (vendorFileSets pkg (found.map os.base)) { fs := fs1, log := w.log } with
        | mk err2 w2 =>
          rw [hv] at h1 h2
          cases err2 with
          | some e =>
            exact ⟨t, by simpa [vendor, hm, hg, hv, vendorSets_dry] using h1,
              fun h => by simp [vendor, hm, hg, hv] at h⟩
          | none =>
            exact ⟨t, by simpa [vendor, hm, hg, hv, vendorSets_dry] using h1,
              fun _ => h2 rfl⟩

/-- Claim C9 against the code: `vendor` calls `os.MkdirAll` before it looks at
the dry-run flag, so the state after a dry run is the state after that call,
and on a file system without the target directory a dry run creates it.  (The
`cp` lines of a dry run do agree with those of a verbose run without dry-run:
that run reports an initial part of them, and all of them when it returns no
error.) -/
theorem vendor_dryrun_creates_directory :
    (∀ {σ ε φ : Type} (os : OS σ ε φ) (verbose : Bool) (dir : String) (pkg : Package)
        (w : World σ),
      (vendor os ⟨true, verbose⟩ dir pkg w).2.fs
        = (os.mkdirAll (os.join dir pkg.ImportPath) 493 w.fs).2) ∧
    (∀ {σ ε φ : Type} (os : OS σ ε φ) (dir : String) (pkg : Package) (w : World σ),
      ∃ t, (vendor os ⟨true, true⟩ dir pkg w).2.log
          = (vendor os ⟨false, true⟩ dir pkg w).2.log ++ t ∧
        ((vendor os ⟨false, true⟩ dir pkg w).1 = none → t = [])) ∧
    vendor memOS ⟨true, true⟩ "/proj/vendor" pkgX ⟨srcFS, []⟩
      = (none, ⟨{ dirs := ["/src/x", "/proj/vendor/x"], files := srcFS.files, clock := 100 },
          ["cp /src/x/a.go => /proj/vendor/x/a.go"]⟩) ∧
    (vendor memOS ⟨true, true⟩ "/proj/vendor" pkgX ⟨srcFS, []⟩).2.fs ≠ srcFS ∧
    "/proj/vendor/x" ∉ srcFS.dirs ∧
    "/proj/vendor/x" ∈ (vendor memOS ⟨true, true⟩ "/proj/vendor" pkgX ⟨srcFS, []⟩).2.fs.dirs :=
  ⟨fun os verbose dir pkg w => vendor_dry_fs os verbose dir pkg w,
    fun os dir pkg w => vendor_log_agrees os dir pkg w,
    by decide, by decide, by decide, by decide⟩

/-! ## The driver -/

theorem isLocal_false_of_not_mem (localImports : GoMap Bool) (path : String)
    (h : isLocal localImports path = false) (hall : ∀ kv ∈ localImports, kv.2 = true) :
    path ∉ GoMap.keys localImports := by
  intro hk
  have := testEnabled_of_mem localImports path hall hk
  unfold testEnabled at this
  unfold isLocal at h
  rw [this] at h
  cases h

theorem vendorAll_spec {σ ε φ : Type} (os : OS σ ε φ) (flags : Flags) (vendorDir : String)
    (localImports : GoMap Bool) :
    ∀ (R : List Package) (w : World σ) (acc : List Package),
      ∃ u t, (vendorAll os flags vendorDir localImports R w acc).vendored = acc ++ u ∧
        R.filter (fun pkg => !isLocal localImports pkg.ImportPath) = u ++ t ∧
        ((vendorAll os flags vendorDir localImports R w acc).err = none → t = []) := by
  intro R
  induction R with
  | nil => intro w acc; exact ⟨[], [], by simp [vendorAll], by simp, fun _ => rfl⟩
  | cons pkg rest ih =>
    intro w acc
    by_cases hl : isLocal localImports pkg.ImportPath = true
    · simp only [vendorAll, hl, if_true, List.filter_cons, Bool.not_true, Bool.false_eq_true,
        if_false]
      exact ih w acc
    · simp only [vendorAll, hl, if_false, List.filter_cons, Bool.not_false, if_true,
        Bool.false_eq_true]
      cases hv : vendor os flags vendorDir pkg
          (if flags.verbose = true then
            { fs := w.fs, log := w.log ++ ["vendor: " ++ pkg.ImportPath] } else w) with
      | mk err w2 =>
        cases err with
        | some e =>
          exact ⟨[pkg], rest.filter (fun pkg => !isLocal localImports pkg.ImportPath),
            by simp, by simp, fun h => by simp at h⟩
        | none =>
          obtain ⟨u, t, h1, h2, h3⟩ := ih w2 (acc ++ [pkg])
          exact ⟨pkg :: u, t, by simp [h1], by simp [h2], h3⟩

/-- Claim C10: the packages `main` passes to `vendor` are records of `R` whose
`ImportPath` is not local, in the order of `R`, and in a run that ends without
a fatal error they are exactly those records; for a map `L` with all values
`true` no path of `L` is passed to `vendor`.  In the example scenario the
vendored packages are `github.com/x/a` and `github.com/x/b`, and only their
directories are created. -/
theorem vendored_eq_result_minus_local :
    (∀ {σ ε φ : Type} (os : OS σ ε φ) (flags : Flags) (vendorDir : String) (L : GoMap Bool)
        (R : List Package) (w : World σ),
      (∃ t, R.filter (fun pkg => !isLocal L pkg.ImportPath)
          = (vendorAll os flags vendorDir L R w []).vendored ++ t) ∧
      ((vendorAll os flags vendorDir L R w []).err = none →
        (vendorAll os flags vendorDir L R w []).vendored
          = R.filter (fun pkg => !isLocal L pkg.ImportPath)) ∧
      (∀ pkg ∈ (vendorAll os flags vendorDir L R w []).vendored,
        pkg ∈ R ∧ isLocal L pkg.ImportPath = false ∧
        ((∀ kv ∈ L, kv.2 = true) → pkg.ImportPath ∉ GoMap.keys L))) ∧
    (∀ fuel, 3 ≤ fuel →
      ∃ run, mainFrom memOS (tableResolver projTable) fuel ⟨false, false⟩ "/proj/vendor"
          [mkPkg "proj/cmd" ["github.com/x/a"] [] []] ⟨emptyFS, []⟩ = some run ∧
        run.err = none ∧
        run.vendored = [mkPkg "github.com/x/a" ["github.com/x/b"] [] [],
          mkPkg "github.com/x/b" [] [] []] ∧
        run.world.fs.dirs = ["/proj/vendor/github.com/x/a", "/proj/vendor/github.com/x/b"]) := by
  constructor
  · intro σ ε φ os flags vendorDir L R w
    obtain ⟨u, t, h1, h2, h3⟩ := vendorAll_spec os flags vendorDir L R w []
    simp only [List.nil_append] at h1
    refine ⟨⟨t, by rw [h1, h2]⟩, ?_, ?_⟩
    · intro herr
      rw [h1, h2, h3 herr, List.append_nil]
    · intro pkg hpkg
      rw [h1] at hpkg
      have hmem : pkg ∈ R.filter (fun pkg => !isLocal L pkg.ImportPath) := by
        rw [h2]; exact List.mem_append_left _ hpkg
      rw [List.mem_filter] at hmem
      have hloc : isLocal L pkg.ImportPath = false := by simpa using hmem.2
      exact ⟨hmem.1, hloc, fun hall => isLocal_false_of_not_mem L _ hloc hall⟩
  · intro fuel hfuel
    obtain ⟨k, rfl⟩ := Nat.exists_eq_add_of_le hfuel
    have hg : getTransitiveImports (tableResolver projTable) (3 + k)
        (localImportsOf [mkPkg "proj/cmd" ["github.com/x/a"] [] []])
        = some ([mkPkg "proj/cmd" ["github.com/x/a"] [] [],
            mkPkg "github.com/x/a" ["github.com/x/b"] [] [],
            mkPkg "github.com/x/b" [] [] []], none) :=
      getTransitiveImports_mono _ _ 3 k _ (by decide)
    refine ⟨vendorAll memOS ⟨false, false⟩ "/proj/vendor"
      (localImportsOf [mkPkg "proj/cmd" ["github.com/x/a"] [] []])
      [mkPkg "proj/cmd" ["github.com/x/a"] [] [], mkPkg "github.com/x/a" ["github.com/x/b"] [] [],
        mkPkg "github.com/x/b" [] [] []] ⟨emptyFS, []⟩ [], ?_, by decide, by decide, by decide⟩
    simp only [mainFrom, hg]
    rfl

end SimpleVendor
